import Mathlib

/-!
Shallow embedding of `dagitron`'s dependency-resolution core
(`src/dagitron/dependencies.py`, class `DependencyResolver`) together with
proofs of the behavioural properties stated in the specification.

Python dictionaries are modelled as association lists in insertion order:
assignment to an existing key replaces the value in place, assignment to a
fresh key appends.  All resolver methods are pure in the source (the class
holds no state), so they are modelled as plain functions.  Recursive Python
code whose termination depends on runtime data (the DFS cycle check and the
memoized level computation) is modelled with an explicit recursion-depth
budget; exceeding it corresponds to Python's `RecursionError`, and the
budget each top-level entry point passes is shown (or, at concrete inputs,
computed) to be large enough whenever the Python code terminates.
-/

namespace Dagitron

abbrev Name := String

/-- Python `d[k]` (first — and in a real dict, only — binding wins). -/
def dictGet? {κ β : Type} [DecidableEq κ] : List (κ × β) → κ → Option β
  | [], _ => none
  | p :: ps, k => if p.1 = k then some p.2 else dictGet? ps k

/-- Python `d[k] = v`: replace the binding in place if the key is present,
otherwise append the new binding. -/
def dictInsert {κ β : Type} [DecidableEq κ] : List (κ × β) → κ → β → List (κ × β)
  | [], k, v => [(k, v)]
  | p :: ps, k, v => if p.1 = k then (k, v) :: ps else p :: dictInsert ps k v

/-- The keys of a dict, in insertion order (Python iteration order). -/
def dictKeys {κ β : Type} (d : List (κ × β)) : List κ := d.map Prod.fst

/-- A dependency map: task name → list of direct dependency names. -/
abbrev DepMap := List (Name × List Name)

/-- Python `dependencies.get(task, [])`. -/
def depsOf (dm : DepMap) (t : Name) : List Name := (dictGet? dm t).getD []


/-! ## The embedded source: `DependencyResolver` (src/dagitron/dependencies.py) -/

/-- The optional `depends_on` field of a task configuration: it may be
absent, `None`, a single name, or a list of names (schema/loader rules out
other shapes). -/
inductive DependsOnField : Type
  | absent : DependsOnField
  | null : DependsOnField
  | single (s : Name) : DependsOnField
  | listOf (l : List Name) : DependsOnField
deriving DecidableEq

/-- One element of `tasks_config`.  Only the fields the resolver reads are
modelled: `task["name"]` and `task.get("depends_on", [])`. -/
structure TaskConfig : Type where
  name : Name
  depends_on : DependsOnField
deriving DecidableEq

/-- The normalization in `resolve_dependencies` lines 34-40:
`task.get("depends_on", [])` (absent → `[]`), then a `str` becomes a
one-element list and `None` becomes `[]`; a list is kept as-is. -/
def normalizeDependsOn : DependsOnField → List Name
  | .absent => []
  | .null => []
  | .single s => [s]
  | .listOf l => l

/-- Errors raised by the resolver.  `missingTask` and `circular` carry the
data their Python messages contain; `keyError` is a `KeyError` escaping a
dict lookup; `stackOverflow` is Python's `RecursionError` (the model's
recursion-depth budget running out). -/
inductive ResolveError : Type
  | missingTask (taskName dep : Name) : ResolveError
  | circular (cycle : List Name) : ResolveError
  | keyError : ResolveError
  | stackOverflow : ResolveError
deriving DecidableEq

/-- The validation loop in `resolve_dependencies` lines 43-47: the first
dependency of the list that is not among the declared names, if any
(`for dep in depends_on: if dep not in task_names: raise ...`). -/
def firstMissing (names : List Name) : List Name → Option Name
  | [] => none
  | d :: ds => if d ∈ names then firstMissing names ds else some d

/-- The `for task in tasks_config` loop of `resolve_dependencies`
(lines 32-49): normalize each record's `depends_on`, raise `MissingTaskError`
at the first dependency not in `task_names`, otherwise store the list under
the task's name (a later record with the same name overwrites the earlier
binding in place). -/
def buildDepMap (names : List Name) : List TaskConfig → DepMap →
    Except ResolveError DepMap
  | [], acc => .ok acc
  | cfg :: rest, acc =>
    let dl := normalizeDependsOn cfg.depends_on
    match firstMissing names dl with
    | some d => .error (.missingTask cfg.name d)
    | none => buildDepMap names rest (dictInsert acc cfg.name dl)

/-- Node colors of the DFS in `_check_circular_dependencies`. -/
inductive Color : Type
  | white
  | gray
  | black
deriving DecidableEq

/-- The mutable state of `_check_circular_dependencies`: the `colors` dict
and the explicit `path` list. -/
structure DfsState : Type where
  colors : List (Name × Color)
  path : List Name
deriving DecidableEq

/-- Python `path.index task` (index of the first occurrence). -/
def firstIdx : List Name → Name → Nat
  | [], _ => 0
  | x :: xs, a => if x = a then 0 else firstIdx xs a + 1

/-- `path[cycle_start:] + [task]` with `cycle_start = path.index(task)`
(lines 76-77). -/
def cycleOf (path : List Name) (task : Name) : List Name :=
  path.drop (firstIdx path task) ++ [task]

/-- The inner `dfs` closure of `_check_circular_dependencies` (lines 73-92).
The first argument counts remaining recursion depth; Python's recursion is
depth-bounded only by the interpreter stack, and every entry point hands
this model a budget that is large enough for every terminating run.  The
`for dependency in dependencies[task]: dfs(dependency)` loop (lines 88-89)
is the fold, threading the state and propagating the first raised error. -/
def dfsVisit (dm : DepMap) : Nat → Name → DfsState → Except ResolveError DfsState
  | 0, _, _ => .error .stackOverflow
  | fuel + 1, task, s =>
    match dictGet? s.colors task with
    | none => .error .keyError
    | some .gray => .error (.circular (cycleOf s.path task))
    | some .black => .ok s
    | some .white =>
      match dictGet? dm task with
      | none => .error .keyError
      | some deps =>
        match deps.foldl
            (fun r d =>
              match (r : Except ResolveError DfsState) with
              | .error e => .error e
              | .ok s1 => dfsVisit dm fuel d s1)
            (.ok ⟨dictInsert s.colors task .gray, s.path ++ [task]⟩) with
        | .error e => .error e
        | .ok s2 => .ok ⟨dictInsert s2.colors task .black, s2.path.dropLast⟩

/-- The dependency loop of `dfs` as a standalone function: run `dfsVisit`
on each name in turn from a given state.  It is proved below to coincide
with the fold inside `dfsVisit` and is the form the lemmas use. -/
def dfsList (dm : DepMap) (fuel : Nat) : List Name → DfsState →
    Except ResolveError DfsState
  | [], s => .ok s
  | d :: ds, s =>
    match dfsVisit dm fuel d s with
    | .error e => .error e
    | .ok s1 => dfsList dm fuel ds s1

/-- The outer loop of `_check_circular_dependencies` (lines 94-97):
`for task in dependencies: if colors[task] == WHITE: dfs(task)`. -/
def dfsAll (dm : DepMap) (fuel : Nat) : List Name → DfsState →
    Except ResolveError DfsState
  | [], s => .ok s
  | k :: ks, s =>
    match dictGet? s.colors k with
    | none => .error .keyError
    | some .white =>
      match dfsVisit dm fuel k s with
      | .error e => .error e
      | .ok s1 => dfsAll dm fuel ks s1
    | some _ => dfsAll dm fuel ks s

/-- `_check_circular_dependencies` (lines 56-97).  `colors` starts with every
key of the map white, `path` starts empty.  The depth budget `dm.length + 1`
covers any DFS over the map: the recursion only descends into white nodes,
each of which is a key and is immediately painted gray, so the nesting depth
never exceeds the number of keys plus one. -/
def check_circular_dependencies (dm : DepMap) : Except ResolveError Unit :=
  match dfsAll dm (dm.length + 1) (dictKeys dm) ⟨dm.map (fun p => (p.1, .white)), []⟩ with
  | .error e => .error e
  | .ok _ => .ok ()

/-- `resolve_dependencies` (lines 14-54): build the declared-name set, build
and validate the dependency map, then run the cycle check and return the
map. -/
def resolve_dependencies (tasks_config : List TaskConfig) : Except ResolveError DepMap :=
  let task_names := tasks_config.map (fun t => t.name)
  match buildDepMap task_names tasks_config [] with
  | .error e => .error e
  | .ok dependencies =>
    match check_circular_dependencies dependencies with
    | .error e => .error e
    | .ok _ => .ok dependencies

/-- `validate_acyclic` (lines 185-198): run the cycle check, catching only
`CircularDependencyError`. -/
def validate_acyclic (dm : DepMap) : Except ResolveError Bool :=
  match check_circular_dependencies dm with
  | .ok _ => .ok true
  | .error (.circular _) => .ok false
  | .error e => .error e

/-! ### `get_execution_order` (lines 99-131, Kahn's algorithm) -/

/-- Lines 109-114: `in_degree = {task: 0 for task in dependencies}` followed
by one increment per entry of each task's dependency list; with the distinct
keys of a real dict this is just the length of each task's list.  The
counter is an integer, as in Python (it may go below zero). -/
def initInDegree (dm : DepMap) : List (Name × Int) :=
  dm.map (fun p => (p.1, (p.2.length : Int)))

/-- The body of the `while` loop for one popped `task` (lines 124-129):
`for other_task, deps in dependencies.items(): if task in deps:` decrement
that task's in-degree and, if it reached exactly zero, append it to the
queue.  `in_degree[other_task]` is a plain `dict[...]` lookup; its key is
always present because the in-degree dict keeps exactly the map's keys, so
the `getD 0` default is never taken. -/
def processPop (dm : DepMap) (task : Name) (st : List (Name × Int) × List Name) :
    List (Name × Int) × List Name :=
  dm.foldl
    (fun st e =>
      if task ∈ e.2 then
        let d : Int := (dictGet? st.1 e.1).getD 0 - 1
        (dictInsert st.1 e.1 d, if d = 0 then st.2 ++ [e.1] else st.2)
      else st)
    st

/-- The `while queue:` loop (lines 120-129), FIFO (`queue.pop(0)`).  The
iteration budget `dm.length + 1` is always sufficient: a task enters the
queue at most once (its integer in-degree passes through zero at most once),
so the loop runs at most once per key. -/
def kahnRun (dm : DepMap) : Nat → List Name → List Name → List (Name × Int) → List Name
  | 0, _, result, _ => result
  | fuel + 1, queue, result, deg =>
    match queue with
    | [] => result
    | task :: rest =>
      let st := processPop dm task (deg, rest)
      kahnRun dm fuel st.2 (result ++ [task]) st.1

/-- `get_execution_order` (lines 99-131). -/
def get_execution_order (dm : DepMap) : List Name :=
  let deg := initInDegree dm
  let queue := (deg.filter (fun p => decide (p.2 = 0))).map Prod.fst
  kahnRun dm (dm.length + 1) queue [] deg

/-! ### `get_task_levels` (lines 133-163) and `get_parallel_groups` (165-183) -/

/-- Failure of the level computation: Python's `RecursionError` when the
memoized recursion does not terminate (the model's depth budget runs out). -/
inductive LevelError : Type
  | stackOverflow : LevelError
deriving DecidableEq

/-- The inner `get_level` closure (lines 147-158), threading the memo dict
`levels`.  Missing keys read as `[]` (`dependencies.get(task, [])`).  The
fold evaluates `get_level(dep)` for each dependency left to right,
collecting the values — the generator consumed by `max`; folding `Nat.max`
from 0 over the nonempty value list agrees with Python's `max`. -/
def getLevel (dm : DepMap) : Nat → Name → List (Name × Nat) →
    Except LevelError (Nat × List (Name × Nat))
  | 0, _, _ => .error .stackOverflow
  | fuel + 1, task, levels =>
    match dictGet? levels task with
    | some v => .ok (v, levels)
    | none =>
      match depsOf dm task with
      | [] => .ok (0, dictInsert levels task 0)
      | d :: ds =>
        match (d :: ds).foldl
            (fun r dep =>
              match (r : Except LevelError (List Nat × List (Name × Nat))) with
              | .error e => .error e
              | .ok (vs, lv) =>
                match getLevel dm fuel dep lv with
                | .error e => .error e
                | .ok (v, lv1) => .ok (vs ++ [v], lv1))
            (.ok ([], levels)) with
        | .error e => .error e
        | .ok (vs, levels1) =>
          let m := vs.foldl Nat.max 0
          .ok (m + 1, dictInsert levels1 task (m + 1))

/-- The dependency loop of `get_level` as a standalone function: evaluate
`get_level` on each name in turn, collecting the values.  It is proved
below to coincide with the fold inside `getLevel` and is the form the
lemmas use. -/
def depLevels (dm : DepMap) (fuel : Nat) : List Name → List (Name × Nat) →
    Except LevelError (List Nat × List (Name × Nat))
  | [], levels => .ok ([], levels)
  | d :: ds, levels =>
    match getLevel dm fuel d levels with
    | .error e => .error e
    | .ok (v, levels1) =>
      match depLevels dm fuel ds levels1 with
      | .error e => .error e
      | .ok (vs, levels2) => .ok (v :: vs, levels2)

/-- The outer `for task in dependencies: get_level(task)` loop (lines
160-161), threading the memo dict.  Each call re-enters `get_level` at
interpreter stack depth zero, so each receives the full depth budget; the
budget `dm.length + 1` suffices on every input on which the Python
recursion terminates, because a chain of nested `get_level` calls repeats
no name and leaves the key set at most once (a name that is not a key has
no dependencies). -/
def levelsAll (dm : DepMap) : List Name → List (Name × Nat) →
    Except LevelError (List (Name × Nat))
  | [], levels => .ok levels
  | k :: ks, levels =>
    match getLevel dm (dm.length + 1) k levels with
    | .error e => .error e
    | .ok (_, levels1) => levelsAll dm ks levels1

/-- `get_task_levels` (lines 133-163). -/
def get_task_levels (dm : DepMap) : Except LevelError (List (Name × Nat)) :=
  levelsAll dm (dictKeys dm) []

/-- Lines 175-180: bucket the `levels.items()` pairs by level value
(`groups[level].append(task)`, creating the bucket on first use). -/
def bucketize (lv : List (Name × Nat)) : List (Nat × List Name) :=
  lv.foldl (fun gs e => dictInsert gs e.2 ((dictGet? gs e.2).getD [] ++ [e.1])) []

/-- `get_parallel_groups` (lines 165-183):
`[groups[level] for level in sorted(groups.keys())]`.  The `groups[level]`
lookup always hits (the sorted keys are the dict's keys), so the `getD []`
default is never taken. -/
def get_parallel_groups (dm : DepMap) : Except LevelError (List (List Name)) :=
  match get_task_levels dm with
  | .error e => .error e
  | .ok lv =>
    let groups := bucketize lv
    .ok (((groups.map Prod.fst).insertionSort (· ≤ ·)).map
      (fun n => (dictGet? groups n).getD []))

/-! ## Graph-theoretic vocabulary used by the specification's claims -/

/-- Referential closure (§3 of the spec): every name appearing in a
dependency list is also a key.  Stated over the entries of the association
list, which makes it decidable at concrete inputs. -/
def Closed (dm : DepMap) : Prop :=
  ∀ e ∈ dm, ∀ d ∈ e.2, d ∈ dictKeys dm

instance (dm : DepMap) : Decidable (Closed dm) := by
  unfold Closed; infer_instance

/-- `b` is a direct or transitive dependency of `a`. -/
inductive Reaches (dm : DepMap) : Name → Name → Prop
  | direct {t d : Name} : d ∈ depsOf dm t → Reaches dm t d
  | tail {t u d : Name} : Reaches dm t u → d ∈ depsOf dm u → Reaches dm t d

/-- Acyclicity: no task is a (direct or transitive) dependency of itself. -/
def Acyclic (dm : DepMap) : Prop := ∀ t, ¬ Reaches dm t t

/-- Keys of the map are distinct — automatic for a real Python dict, made
explicit here because the model represents a dict as an association list. -/
def KeysNodup (dm : DepMap) : Prop := (dictKeys dm).Nodup

instance (dm : DepMap) : Decidable (KeysNodup dm) := by
  unfold KeysNodup; infer_instance

/-- Every task's dependency list is free of repeated entries. -/
def DepListsNodup (dm : DepMap) : Prop := ∀ e ∈ dm, e.2.Nodup

instance (dm : DepMap) : Decidable (DepListsNodup dm) := by
  unfold DepListsNodup; infer_instance

/-- The last record of `tasks_config` carrying a given name (the record
whose normalized list `resolve_dependencies` leaves in the returned dict
when names repeat). -/
def lastRecord (tasks : List TaskConfig) (n : Name) : Option TaskConfig :=
  ((tasks.filter (fun c => decide (c.name = n))).reverse).head?

/-- The names reachable from `t` along dependency edges, `t` included. -/
def reachClose (dm : DepMap) (t : Name) : Set Name :=
  {y | y = t ∨ Reaches dm t y}

/-- The reachable names that are keys: the (finite) set whose cardinality
strictly drops along every dependency edge of an acyclic map, bounding both
recursion depth and inductive arguments. -/
def muSet (dm : DepMap) (t : Name) : Set Name :=
  reachClose dm t ∩ {y | y ∈ dictKeys dm}

/-- Internal consistency of the memo dict `levels` of `get_task_levels`:
every recorded value satisfies the code's level equation — `0` for a task
without dependencies, otherwise one more than the maximum of its
dependencies' recorded values, all of which are present. -/
def MemoOK (dm : DepMap) (lv : List (Name × Nat)) : Prop :=
  ∀ t v, dictGet? lv t = some v →
    (depsOf dm t = [] → v = 0) ∧
    (depsOf dm t ≠ [] →
      (∀ d ∈ depsOf dm t, ∃ w, dictGet? lv d = some w) ∧
      v = ((depsOf dm t).map (fun d => (dictGet? lv d).getD 0)).foldl Nat.max 0 + 1)

/-- `lv'` extends `lv`: every binding of `lv` is still present, unchanged
(the memo dict only ever gains entries). -/
def memoExtends (lv lv' : List (Name × Nat)) : Prop :=
  ∀ n v, dictGet? lv n = some v → dictGet? lv' n = some v

/-! ## Dictionary lemmas -/

theorem dictKeys_cons {κ β : Type} (p : κ × β) (ps : List (κ × β)) :
    dictKeys (p :: ps) = p.1 :: dictKeys ps := rfl

section DictLemmas

variable {κ β : Type} [DecidableEq κ]

theorem dictGet?_dictInsert_self (d : List (κ × β)) (k : κ) (v : β) :
    dictGet? (dictInsert d k v) k = some v := by
  induction d with
  | nil => simp [dictInsert, dictGet?]
  | cons p ps ih =>
    by_cases h : p.1 = k
    · simp [dictInsert, dictGet?, h]
    · simp [dictInsert, dictGet?, h, ih]

theorem dictGet?_dictInsert_ne (d : List (κ × β)) (k n : κ) (v : β) (h : n ≠ k) :
    dictGet? (dictInsert d k v) n = dictGet? d n := by
  have hkn : ¬ k = n := fun hk => h hk.symm
  induction d with
  | nil => simp [dictInsert, dictGet?, hkn]
  | cons p ps ih =>
    by_cases hp : p.1 = k
    · rw [dictInsert, if_pos hp, dictGet?, dictGet?, if_neg hkn, if_neg (hp ▸ hkn)]
    · rw [dictInsert, if_neg hp, dictGet?, dictGet?]
      by_cases hn : p.1 = n
      · rw [if_pos hn, if_pos hn]
      · rw [if_neg hn, if_neg hn, ih]

theorem dictKeys_dictInsert_mem (d : List (κ × β)) (k : κ) (v : β) (h : k ∈ dictKeys d) :
    dictKeys (dictInsert d k v) = dictKeys d := by
  induction d with
  | nil => simp [dictKeys] at h
  | cons p ps ih =>
    by_cases hp : p.1 = k
    · rw [dictInsert, if_pos hp]
      simp [dictKeys, hp]
    · have h' : k ∈ dictKeys ps := by
        rw [dictKeys_cons] at h
        rcases List.mem_cons.mp h with h1 | h1
        · exact absurd h1.symm hp
        · exact h1
      rw [dictInsert, if_neg hp, dictKeys_cons, dictKeys_cons, ih h']

theorem dictKeys_dictInsert_not_mem (d : List (κ × β)) (k : κ) (v : β)
    (h : ¬ k ∈ dictKeys d) : dictKeys (dictInsert d k v) = dictKeys d ++ [k] := by
  induction d with
  | nil => simp [dictInsert, dictKeys]
  | cons p ps ih =>
    have hp : ¬ p.1 = k := by
      intro hc
      exact h (by rw [dictKeys_cons, hc]; exact List.mem_cons_self _ _)
    have h' : ¬ k ∈ dictKeys ps := by
      intro hc
      exact h (by rw [dictKeys_cons]; exact List.mem_cons_of_mem _ hc)
    rw [dictInsert, if_neg hp, dictKeys_cons, dictKeys_cons, ih h']
    rfl

theorem dictGet?_eq_none_of_not_mem (d : List (κ × β)) (k : κ) (h : ¬ k ∈ dictKeys d) :
    dictGet? d k = none := by
  induction d with
  | nil => simp [dictGet?]
  | cons p ps ih =>
    have hp : ¬ p.1 = k := by
      intro hc
      exact h (by rw [dictKeys_cons, hc]; exact List.mem_cons_self _ _)
    have h' : ¬ k ∈ dictKeys ps := by
      intro hc
      exact h (by rw [dictKeys_cons]; exact List.mem_cons_of_mem _ hc)
    rw [dictGet?, if_neg hp]
    exact ih h'

theorem mem_dictKeys_of_dictGet?_eq_some {d : List (κ × β)} {k : κ} {v : β}
    (h : dictGet? d k = some v) : k ∈ dictKeys d := by
  induction d with
  | nil => simp [dictGet?] at h
  | cons p ps ih =>
    by_cases hp : p.1 = k
    · rw [dictKeys_cons, hp]
      exact List.mem_cons_self _ _
    · rw [dictGet?, if_neg hp] at h
      rw [dictKeys_cons]
      exact List.mem_cons_of_mem _ (ih h)

theorem dictGet?_isSome_of_mem {d : List (κ × β)} {k : κ} (h : k ∈ dictKeys d) :
    ∃ v, dictGet? d k = some v := by
  induction d with
  | nil => simp [dictKeys] at h
  | cons p ps ih =>
    by_cases hp : p.1 = k
    · exact ⟨p.2, by rw [dictGet?, if_pos hp]⟩
    · have h' : k ∈ dictKeys ps := by
        rw [dictKeys_cons] at h
        rcases List.mem_cons.mp h with h1 | h1
        · exact absurd h1.symm hp
        · exact h1
      rcases ih h' with ⟨v, hv⟩
      exact ⟨v, by rw [dictGet?, if_neg hp]; exact hv⟩

theorem mem_of_dictGet?_eq_some {d : List (κ × β)} {k : κ} {v : β}
    (h : dictGet? d k = some v) : (k, v) ∈ d := by
  induction d with
  | nil => simp [dictGet?] at h
  | cons p ps ih =>
    by_cases hp : p.1 = k
    · rw [dictGet?, if_pos hp] at h
      have : p = (k, v) := by
        cases p
        cases hp
        cases (Option.some.injEq _ _ ▸ h : _ = v)
        rfl
      exact this ▸ List.mem_cons_self _ _
    · rw [dictGet?, if_neg hp] at h
      exact List.mem_cons_of_mem _ (ih h)

theorem dictGet?_of_mem_nodup {d : List (κ × β)} {k : κ} {v : β}
    (hnd : (dictKeys d).Nodup) (h : (k, v) ∈ d) : dictGet? d k = some v := by
  induction d with
  | nil => simp at h
  | cons p ps ih =>
    rw [dictKeys_cons] at hnd
    have hnd' := List.nodup_cons.mp hnd
    rcases List.mem_cons.mp h with h1 | h1
    · rw [← h1, dictGet?, if_pos rfl]
    · have hk : k ∈ dictKeys ps := List.mem_map_of_mem Prod.fst h1
      have hp : ¬ p.1 = k := fun hc => hnd'.1 (hc ▸ hk)
      rw [dictGet?, if_neg hp]
      exact ih hnd'.2 h1

end DictLemmas

/-! ## Unfolding lemmas: the folds inside `dfsVisit` and `getLevel` -/

theorem dfsFold_spec (dm : DepMap) (fuel : Nat) (l : List Name) :
    (∀ s, l.foldl
        (fun r d =>
          match (r : Except ResolveError DfsState) with
          | .error e => .error e
          | .ok s1 => dfsVisit dm fuel d s1)
        (Except.ok s) = dfsList dm fuel l s) ∧
    (∀ e, l.foldl
        (fun r d =>
          match (r : Except ResolveError DfsState) with
          | .error e => .error e
          | .ok s1 => dfsVisit dm fuel d s1)
        (Except.error e) = Except.error e) := by
  induction l with
  | nil => exact ⟨fun _ => rfl, fun _ => rfl⟩
  | cons d ds ih =>
    constructor
    · intro s
      rw [List.foldl_cons, dfsList]
      cases h : dfsVisit dm fuel d s with
      | error e =>
        show ds.foldl _ (dfsVisit dm fuel d s) = _
        rw [h]
        exact ih.2 e
      | ok s1 =>
        show ds.foldl _ (dfsVisit dm fuel d s) = _
        rw [h]
        exact ih.1 s1
    · intro e
      rw [List.foldl_cons]
      exact ih.2 e

/-- The fold inside `dfsVisit` is `dfsList` (rewriting form). -/
theorem dfsFold_eq (dm : DepMap) (fuel : Nat) : ∀ (l : List Name) (s : DfsState),
    l.foldl
      (fun r d =>
        match (r : Except ResolveError DfsState) with
        | .error e => .error e
        | .ok s1 => dfsVisit dm fuel d s1)
      (Except.ok s) = dfsList dm fuel l s :=
  fun l => (dfsFold_spec dm fuel l).1

/-- One-step unfolding of `dfsVisit` at positive depth, with the dependency
loop expressed through `dfsList`. -/
theorem dfsVisit_succ (dm : DepMap) (fuel : Nat) (task : Name) (s : DfsState) :
    dfsVisit dm (fuel + 1) task s =
      match dictGet? s.colors task with
      | none => .error .keyError
      | some .gray => .error (.circular (cycleOf s.path task))
      | some .black => .ok s
      | some .white =>
        match dictGet? dm task with
        | none => .error .keyError
        | some deps =>
          match dfsList dm fuel deps
              ⟨dictInsert s.colors task .gray, s.path ++ [task]⟩ with
          | .error e => .error e
          | .ok s2 => .ok ⟨dictInsert s2.colors task .black, s2.path.dropLast⟩ := by
  rw [dfsVisit]
  cases dictGet? s.colors task with
  | none => rfl
  | some c =>
    cases c with
    | gray => rfl
    | black => rfl
    | white =>
      cases dictGet? dm task with
      | none => rfl
      | some deps =>
        simp only [dfsFold_eq]

theorem depFold_spec (dm : DepMap) (fuel : Nat) (l : List Name) :
    (∀ vs0 lv, l.foldl
        (fun r dep =>
          match (r : Except LevelError (List Nat × List (Name × Nat))) with
          | .error e => .error e
          | .ok (vs, lv) =>
            match getLevel dm fuel dep lv with
            | .error e => .error e
            | .ok (v, lv1) => .ok (vs ++ [v], lv1))
        (Except.ok (vs0, lv)) =
      match depLevels dm fuel l lv with
      | .error e => .error e
      | .ok (vs, lv1) => .ok (vs0 ++ vs, lv1)) ∧
    (∀ e, l.foldl
        (fun r dep =>
          match (r : Except LevelError (List Nat × List (Name × Nat))) with
          | .error e => .error e
          | .ok (vs, lv) =>
            match getLevel dm fuel dep lv with
            | .error e => .error e
            | .ok (v, lv1) => .ok (vs ++ [v], lv1))
        (Except.error e) = Except.error e) := by
  induction l with
  | nil => exact ⟨fun _ _ => by simp [depLevels], fun _ => rfl⟩
  | cons d ds ih =>
    constructor
    · intro vs0 lv
      rw [List.foldl_cons, depLevels]
      cases h : getLevel dm fuel d lv with
      | error e =>
        simp only [h]
        exact ih.2 e
      | ok p =>
        obtain ⟨v, lv1⟩ := p
        simp only [h]
        rw [ih.1 (vs0 ++ [v]) lv1]
        cases depLevels dm fuel ds lv1 with
        | error e => rfl
        | ok q => simp
    · intro e
      rw [List.foldl_cons]
      exact ih.2 e

/-- The fold inside `getLevel` is `depLevels` (rewriting form). -/
theorem depFold_eq (dm : DepMap) (fuel : Nat) :
    ∀ (l : List Name) (vs0 : List Nat) (lv : List (Name × Nat)),
    l.foldl
      (fun r dep =>
        match (r : Except LevelError (List Nat × List (Name × Nat))) with
        | .error e => .error e
        | .ok (vs, lv) =>
          match getLevel dm fuel dep lv with
          | .error e => .error e
          | .ok (v, lv1) => .ok (vs ++ [v], lv1))
      (Except.ok (vs0, lv)) =
      match depLevels dm fuel l lv with
      | .error e => .error e
      | .ok (vs, lv1) => .ok (vs0 ++ vs, lv1) :=
  fun l => (depFold_spec dm fuel l).1

/-- One-step unfolding of `getLevel` at positive depth, with the dependency
loop expressed through `depLevels`. -/
theorem getLevel_succ (dm : DepMap) (fuel : Nat) (task : Name) (levels : List (Name × Nat)) :
    getLevel dm (fuel + 1) task levels =
      match dictGet? levels task with
      | some v => .ok (v, levels)
      | none =>
        match depsOf dm task with
        | [] => .ok (0, dictInsert levels task 0)
        | d :: ds =>
          match depLevels dm fuel (d :: ds) levels with
          | .error e => .error e
          | .ok (vs, levels1) =>
            .ok (vs.foldl Nat.max 0 + 1,
              dictInsert levels1 task (vs.foldl Nat.max 0 + 1)) := by
  rw [getLevel]
  cases dictGet? levels task with
  | some v => rfl
  | none =>
    cases hd : depsOf dm task with
    | nil => rfl
    | cons d ds =>
      simp only [depFold_eq]
      cases depLevels dm fuel (d :: ds) levels with
      | error e => rfl
      | ok p => simp

/-! ## Building the dependency map: `firstMissing`, `buildDepMap`, `lastRecord` -/

theorem firstMissing_eq_none_iff (names : List Name) (l : List Name) :
    firstMissing names l = none ↔ ∀ d ∈ l, d ∈ names := by
  induction l with
  | nil => simp [firstMissing]
  | cons d ds ih =>
    by_cases h : d ∈ names
    · rw [firstMissing, if_pos h]
      simp [ih, h]
    · rw [firstMissing, if_neg h]
      simp [h]

theorem firstMissing_eq_some {names l : List Name} {d : Name}
    (h : firstMissing names l = some d) : d ∈ l ∧ ¬ d ∈ names := by
  induction l with
  | nil => simp [firstMissing] at h
  | cons x xs ih =>
    by_cases hx : x ∈ names
    · rw [firstMissing, if_pos hx] at h
      exact ⟨List.mem_cons_of_mem _ (ih h).1, (ih h).2⟩
    · rw [firstMissing, if_neg hx] at h
      cases h
      exact ⟨List.mem_cons_self _ _, hx⟩

theorem lastRecord_cons (cfg : TaskConfig) (rest : List TaskConfig) (n : Name) :
    lastRecord (cfg :: rest) n =
      if cfg.name = n then some ((lastRecord rest n).getD cfg)
      else lastRecord rest n := by
  unfold lastRecord
  rw [List.filter_cons]
  by_cases h : cfg.name = n
  · rw [if_pos (by simpa using h), if_pos h, List.reverse_cons]
    cases hr : (rest.filter (fun c => decide (c.name = n))).reverse with
    | nil => simp [hr]
    | cons a as => simp [hr]
  · rw [if_neg (by simpa using h), if_neg h]

theorem lastRecord_eq_none {tasks : List TaskConfig} {n : Name}
    (h : ∀ cfg ∈ tasks, ¬ cfg.name = n) : lastRecord tasks n = none := by
  unfold lastRecord
  rw [List.filter_eq_nil_iff.mpr (by simpa using h)]
  rfl

theorem lastRecord_mem {tasks : List TaskConfig} {n : Name} {cfg : TaskConfig}
    (h : lastRecord tasks n = some cfg) : cfg ∈ tasks ∧ cfg.name = n := by
  unfold lastRecord at h
  have h1 : cfg ∈ (tasks.filter (fun c => decide (c.name = n))).reverse :=
    List.mem_of_mem_head? h
  rw [List.mem_reverse] at h1
  have h2 := List.mem_filter.mp h1
  exact ⟨h2.1, by simpa using h2.2⟩

theorem lastRecord_isSome {tasks : List TaskConfig} {cfg : TaskConfig}
    (h : cfg ∈ tasks) : ∃ c, lastRecord tasks cfg.name = some c := by
  induction tasks with
  | nil => simp at h
  | cons x xs ih =>
    rw [lastRecord_cons]
    by_cases hx : x.name = cfg.name
    · rw [if_pos hx]
      exact ⟨_, rfl⟩
    · rw [if_neg hx]
      rcases List.mem_cons.mp h with h1 | h1
      · exact absurd (h1 ▸ rfl) hx
      · exact ih h1

theorem lastRecord_of_nodup {tasks : List TaskConfig} {cfg : TaskConfig}
    (hnd : (tasks.map (fun c => c.name)).Nodup) (h : cfg ∈ tasks) :
    lastRecord tasks cfg.name = some cfg := by
  induction tasks with
  | nil => simp at h
  | cons x xs ih =>
    rw [List.map_cons] at hnd
    have hnd' := List.nodup_cons.mp hnd
    rcases List.mem_cons.mp h with h1 | h1
    · subst h1
      rw [lastRecord_cons, if_pos rfl,
        lastRecord_eq_none (fun c hc hcn =>
          hnd'.1 (by rw [← hcn]; exact List.mem_map_of_mem _ hc))]
      rfl
    · have hx : ¬ x.name = cfg.name := by
        intro hc
        exact hnd'.1 (hc ▸ List.mem_map_of_mem (fun c => c.name) h1)
      rw [lastRecord_cons, if_neg hx]
      exact ih hnd'.2 h1

/-- What `resolve_dependencies`'s construction loop leaves in the dict at
each name: the normalized list of the last record with that name, and the
previous contents of the accumulator for names that never occur. -/
theorem buildDepMap_get {names : List Name} :
    ∀ {tasks : List TaskConfig} {acc dm : DepMap},
      buildDepMap names tasks acc = .ok dm →
      ∀ n, dictGet? dm n =
        match lastRecord tasks n with
        | some cfg => some (normalizeDependsOn cfg.depends_on)
        | none => dictGet? acc n := by
  intro tasks
  induction tasks with
  | nil =>
    intro acc dm h n
    cases h
    simp [lastRecord]
  | cons cfg rest ih =>
    intro acc dm h n
    rw [buildDepMap] at h
    cases hm : firstMissing names (normalizeDependsOn cfg.depends_on) with
    | some d => rw [hm] at h; cases h
    | none =>
      rw [hm] at h
      have := ih h n
      rw [this, lastRecord_cons]
      by_cases hn : cfg.name = n
      · subst hn
        cases hl : lastRecord rest cfg.name with
        | some c => simp
        | none => simp [dictGet?_dictInsert_self]
      · rw [if_neg hn]
        cases hl : lastRecord rest n with
        | some c => rfl
        | none => exact dictGet?_dictInsert_ne acc cfg.name n _ (fun hc => hn hc.symm)

theorem buildDepMap_error_shape {names : List Name} :
    ∀ {tasks : List TaskConfig} {acc : DepMap} {e : ResolveError},
      buildDepMap names tasks acc = .error e → ∃ t d, e = .missingTask t d := by
  intro tasks
  induction tasks with
  | nil => intro acc e h; cases h
  | cons cfg rest ih =>
    intro acc e h
    rw [buildDepMap] at h
    cases hm : firstMissing names (normalizeDependsOn cfg.depends_on) with
    | some d =>
      rw [hm] at h
      cases h
      exact ⟨cfg.name, d, rfl⟩
    | none =>
      rw [hm] at h
      exact ih h

theorem buildDepMap_missing_sound {names : List Name} :
    ∀ {tasks : List TaskConfig} {acc : DepMap} {t d : Name},
      buildDepMap names tasks acc = .error (.missingTask t d) →
      ∃ cfg ∈ tasks, cfg.name = t ∧ d ∈ normalizeDependsOn cfg.depends_on ∧
        ¬ d ∈ names := by
  intro tasks
  induction tasks with
  | nil => intro acc t d h; cases h
  | cons cfg rest ih =>
    intro acc t d h
    rw [buildDepMap] at h
    cases hm : firstMissing names (normalizeDependsOn cfg.depends_on) with
    | some x =>
      rw [hm] at h
      cases h
      rcases firstMissing_eq_some hm with ⟨hmem, hnot⟩
      exact ⟨cfg, List.mem_cons_self _ _, rfl, hmem, hnot⟩
    | none =>
      rw [hm] at h
      rcases ih h with ⟨c, hc, ht, hd, hn⟩
      exact ⟨c, List.mem_cons_of_mem _ hc, ht, hd, hn⟩

theorem buildDepMap_error_of_missing {names : List Name} :
    ∀ {tasks : List TaskConfig} (acc : DepMap),
      (∃ cfg ∈ tasks, ∃ d ∈ normalizeDependsOn cfg.depends_on, ¬ d ∈ names) →
      ∃ t d, buildDepMap names tasks acc = .error (.missingTask t d) := by
  intro tasks
  induction tasks with
  | nil => intro acc h; simp at h
  | cons cfg rest ih =>
    intro acc h
    rw [buildDepMap]
    cases hm : firstMissing names (normalizeDependsOn cfg.depends_on) with
    | some x => exact ⟨cfg.name, x, rfl⟩
    | none =>
      rcases h with ⟨c, hc, d, hd, hn⟩
      rcases List.mem_cons.mp hc with h1 | h1
      · exfalso
        exact hn ((firstMissing_eq_none_iff names _).mp hm d (h1 ▸ hd))
      · exact ih _ ⟨c, h1, d, hd, hn⟩

/-! ## The cycle check raises only cycle/lookup/recursion errors -/

theorem dfs_no_missing (dm : DepMap) : ∀ fuel : Nat,
    (∀ task s t d, dfsVisit dm fuel task s ≠ .error (.missingTask t d)) ∧
    (∀ l s t d, dfsList dm fuel l s ≠ .error (.missingTask t d)) := by
  have hB : ∀ fuel : Nat,
      (∀ task s t d, dfsVisit dm fuel task s ≠ .error (.missingTask t d)) →
      ∀ l s t d, dfsList dm fuel l s ≠ .error (.missingTask t d) := by
    intro fuel hA l
    induction l with
    | nil => intro s t d h; cases h
    | cons x xs ih =>
      intro s t d h
      rw [dfsList] at h
      cases hx : dfsVisit dm fuel x s with
      | error e =>
        rw [hx] at h
        cases h
        exact hA x s t d hx
      | ok s1 =>
        rw [hx] at h
        exact ih s1 t d h
  intro fuel
  induction fuel with
  | zero =>
    have hA : ∀ task s t d,
        dfsVisit dm 0 task s ≠ .error (.missingTask t d) := by
      intro task s t d h
      rw [dfsVisit] at h
      cases h
    exact ⟨hA, hB 0 hA⟩
  | succ n ih =>
    have hA : ∀ task s t d,
        dfsVisit dm (n + 1) task s ≠ .error (.missingTask t d) := by
      intro task s t d h
      rw [dfsVisit_succ] at h
      cases hc : dictGet? s.colors task with
      | none => simp [hc] at h
      | some c =>
        cases c with
        | gray => simp [hc] at h
        | black => simp [hc] at h
        | white =>
          simp only [hc] at h
          cases hm : dictGet? dm task with
          | none => simp [hm] at h
          | some deps =>
            simp only [hm] at h
            cases hl : dfsList dm n deps
                ⟨dictInsert s.colors task .gray, s.path ++ [task]⟩ with
            | error e =>
              simp only [hl] at h
              cases h
              exact hB n ih.1 _ _ t d hl
            | ok s2 => simp [hl] at h
    exact ⟨hA, hB _ hA⟩

theorem dfsAll_no_missing (dm : DepMap) (fuel : Nat) :
    ∀ ks s t d, dfsAll dm fuel ks s ≠ .error (.missingTask t d) := by
  intro ks
  induction ks with
  | nil => intro s t d h; cases h
  | cons k ks ih =>
    intro s t d h
    rw [dfsAll] at h
    cases hc : dictGet? s.colors k with
    | none => rw [hc] at h; cases h
    | some c =>
      rw [hc] at h
      cases c with
      | white =>
        cases hv : dfsVisit dm fuel k s with
        | error e =>
          rw [hv] at h
          cases h
          exact (dfs_no_missing dm fuel).1 k s t d hv
        | ok s1 =>
          rw [hv] at h
          exact ih s1 t d h
      | gray => exact ih s t d h
      | black => exact ih s t d h

theorem check_no_missing (dm : DepMap) (t d : Name) :
    check_circular_dependencies dm ≠ .error (.missingTask t d) := by
  intro h
  rw [check_circular_dependencies] at h
  cases hc : dfsAll dm (dm.length + 1) (dictKeys dm)
      ⟨dm.map (fun p => (p.1, .white)), []⟩ with
  | error e =>
    rw [hc] at h
    cases h
    exact dfsAll_no_missing dm _ _ _ t d hc
  | ok s => rw [hc] at h; cases h

/-! ## `resolve_dependencies`: decomposition -/

theorem resolve_ok_elim {tasks : List TaskConfig} {dm : DepMap}
    (h : resolve_dependencies tasks = .ok dm) :
    buildDepMap (tasks.map (fun t => t.name)) tasks [] = .ok dm ∧
    check_circular_dependencies dm = .ok () := by
  rw [resolve_dependencies] at h
  cases hb : buildDepMap (tasks.map (fun t => t.name)) tasks [] with
  | error e => simp [hb] at h
  | ok dm1 =>
    simp only [hb] at h
    cases hc : check_circular_dependencies dm1 with
    | error e => simp [hc] at h
    | ok u =>
      simp only [hc] at h
      cases h
      cases u
      exact ⟨rfl, hc⟩

theorem resolve_missing_elim {tasks : List TaskConfig} {t d : Name}
    (h : resolve_dependencies tasks = .error (.missingTask t d)) :
    buildDepMap (tasks.map (fun t => t.name)) tasks [] = .error (.missingTask t d) := by
  rw [resolve_dependencies] at h
  cases hb : buildDepMap (tasks.map (fun t => t.name)) tasks [] with
  | error e =>
    simp only [hb] at h
    cases h
    rfl
  | ok dm1 =>
    simp only [hb] at h
    cases hc : check_circular_dependencies dm1 with
    | error e =>
      simp only [hc] at h
      cases h
      exact absurd hc (check_no_missing dm1 t d)
    | ok u => simp [hc] at h

/-! ## Claims C2, C3, C7, C8, C9 -/

/-- C2: Every dependency map returned by `resolve_dependencies` without
raising an error is acyclic in the code's own sense: `validate_acyclic`
applied to it returns `True`, so a caller of resolve never receives a
cyclic map. -/
theorem claim_C2 (tasks : List TaskConfig) (dm : DepMap)
    (h : resolve_dependencies tasks = .ok dm) :
    validate_acyclic dm = .ok true := by
  rw [validate_acyclic, (resolve_ok_elim h).2]

/-- Witness for C2 at a concrete input. -/
theorem claim_C2_witness :
    resolve_dependencies [⟨"A", .absent⟩, ⟨"B", .single "A"⟩] =
        .ok [("A", []), ("B", ["A"])] ∧
    validate_acyclic [("A", []), ("B", ["A"])] = .ok true :=
  ⟨rfl, claim_C2 [⟨"A", .absent⟩, ⟨"B", .single "A"⟩] [("A", []), ("B", ["A"])] rfl⟩

/-- C3: `resolve_dependencies` raises a `MissingTask` error if and only if
some task record declares a dependency name that is not among the declared
task names; the error carries both the dependent task's name and the missing
dependency's name of an actually offending record; and because the
construction loop runs before the cycle check, the `MissingTask` error wins
even when the input also contains a cycle (the backward direction holds for
every input, cyclic or not). -/
theorem claim_C3 (tasks : List TaskConfig) :
    ((∃ t d, resolve_dependencies tasks = .error (.missingTask t d)) ↔
      ∃ cfg ∈ tasks, ∃ d ∈ normalizeDependsOn cfg.depends_on,
        ¬ d ∈ tasks.map (fun c => c.name)) ∧
    (∀ t d, resolve_dependencies tasks = .error (.missingTask t d) →
      ¬ d ∈ tasks.map (fun c => c.name) ∧
      ∃ cfg ∈ tasks, cfg.name = t ∧ d ∈ normalizeDependsOn cfg.depends_on) := by
  constructor
  · constructor
    · rintro ⟨t, d, h⟩
      rcases buildDepMap_missing_sound (resolve_missing_elim h) with
        ⟨cfg, hmem, _, hd, hnames⟩
      exact ⟨cfg, hmem, d, hd, hnames⟩
    · intro h
      rcases buildDepMap_error_of_missing [] h with ⟨t, d, hb⟩
      refine ⟨t, d, ?_⟩
      rw [resolve_dependencies, hb]
  · intro t d h
    rcases buildDepMap_missing_sound (resolve_missing_elim h) with
      ⟨cfg, hmem, ht, hd, hnames⟩
    exact ⟨hnames, cfg, hmem, ht, hd⟩

/-- Witness for C3 at a concrete input (spec Scenario D). -/
theorem claim_C3_witness :
    ¬ "ghost" ∈ ([⟨"A", .single "ghost"⟩] : List TaskConfig).map (fun c => c.name) ∧
    ∃ cfg ∈ ([⟨"A", .single "ghost"⟩] : List TaskConfig),
      cfg.name = "A" ∧ "ghost" ∈ normalizeDependsOn cfg.depends_on :=
  (claim_C3 [⟨"A", .single "ghost"⟩]).2 "A" "ghost" rfl

/-- C7: In the map built by `resolve_dependencies` (on an input with unique
names, the spec's input constraint), a task whose `depends_on` is absent or
`None` is mapped to `[]`, a single string name to the one-element list, and
a list-valued `depends_on` is kept as-is: every record's name maps to
exactly the normalization of its `depends_on` field. -/
theorem claim_C7 (tasks : List TaskConfig) (dm : DepMap) (cfg : TaskConfig)
    (hnd : (tasks.map (fun c => c.name)).Nodup)
    (hok : resolve_dependencies tasks = .ok dm) (hmem : cfg ∈ tasks) :
    dictGet? dm cfg.name = some (normalizeDependsOn cfg.depends_on) ∧
    normalizeDependsOn .absent = [] ∧
    normalizeDependsOn .null = [] ∧
    (∀ s, normalizeDependsOn (.single s) = [s]) ∧
    (∀ l, normalizeDependsOn (.listOf l) = l) := by
  refine ⟨?_, rfl, rfl, fun _ => rfl, fun _ => rfl⟩
  rw [buildDepMap_get (resolve_ok_elim hok).1 cfg.name,
    lastRecord_of_nodup hnd hmem]

/-- Witness for C7 at a concrete input. -/
theorem claim_C7_witness :
    dictGet? [("A", []), ("B", ["A"])] "B" =
      some (normalizeDependsOn (.single "A")) ∧
    normalizeDependsOn .absent = [] ∧
    normalizeDependsOn .null = [] ∧
    (∀ s, normalizeDependsOn (.single s) = [s]) ∧
    (∀ l, normalizeDependsOn (.listOf l) = l) :=
  claim_C7 [⟨"A", .absent⟩, ⟨"B", .single "A"⟩] [("A", []), ("B", ["A"])]
    ⟨"B", .single "A"⟩ (by decide) rfl (by decide)

/-- C8: Calling `resolve_dependencies` twice on the same input yields maps
with identical key sets and, for each key, dependency lists equal as sets —
the computation is a pure function of its argument (the resolver object
holds no state), so the two results are in fact identical. -/
theorem claim_C8 (tasks : List TaskConfig) (dm1 dm2 : DepMap)
    (h1 : resolve_dependencies tasks = .ok dm1)
    (h2 : resolve_dependencies tasks = .ok dm2) :
    dictKeys dm1 = dictKeys dm2 ∧
    ∀ n d, d ∈ depsOf dm1 n ↔ d ∈ depsOf dm2 n := by
  have h : dm1 = dm2 := by
    have h12 := h1.symm.trans h2
    cases h12
    rfl
  subst h
  exact ⟨rfl, fun _ _ => Iff.rfl⟩

/-- Witness for C8 at a concrete input. -/
theorem claim_C8_witness :
    dictKeys [("A", ([] : List Name))] = dictKeys [("A", ([] : List Name))] ∧
    ∀ n d, d ∈ depsOf [("A", [])] n ↔ d ∈ depsOf [("A", [])] n :=
  claim_C8 [⟨"A", .absent⟩] [("A", [])] [("A", [])] rfl rfl

/-- C9: If the input list contains several records with the same name,
`resolve_dependencies` maps that name to the normalized dependency list of
the last such record — the in-place dict assignment makes later duplicates
overwrite earlier ones, and lists are never merged. -/
theorem claim_C9 (tasks : List TaskConfig) (dm : DepMap) (n : Name)
    (hok : resolve_dependencies tasks = .ok dm)
    (hn : n ∈ tasks.map (fun c => c.name)) :
    ∃ cfg, lastRecord tasks n = some cfg ∧ cfg ∈ tasks ∧ cfg.name = n ∧
      dictGet? dm n = some (normalizeDependsOn cfg.depends_on) := by
  rcases List.mem_map.mp hn with ⟨c, hc, hcn⟩
  rcases lastRecord_isSome hc with ⟨cfg, hcfg⟩
  rw [hcn] at hcfg
  rcases lastRecord_mem hcfg with ⟨hmem, hname⟩
  refine ⟨cfg, hcfg, hmem, hname, ?_⟩
  rw [buildDepMap_get (resolve_ok_elim hok).1 n, hcfg]

/-- Witness for C9 at a concrete input with a duplicated name: the first
`"A"` record depends on `"B"`, the later one has no dependencies, and the
returned map keeps only the later (empty) list. -/
theorem claim_C9_witness :
    ∃ cfg, lastRecord [⟨"B", .absent⟩, ⟨"A", .single "B"⟩, ⟨"A", .absent⟩] "A" =
        some cfg ∧
      cfg ∈ ([⟨"B", .absent⟩, ⟨"A", .single "B"⟩, ⟨"A", .absent⟩] : List TaskConfig) ∧
      cfg.name = "A" ∧
      dictGet? [("B", []), ("A", [])] "A" = some (normalizeDependsOn cfg.depends_on) :=
  claim_C9 [⟨"B", .absent⟩, ⟨"A", .single "B"⟩, ⟨"A", .absent⟩]
    [("B", []), ("A", [])] "A" rfl (by decide)

/-! ## Claim C4 -/

/-- C4: When the DFS of the cycle check reaches a node currently marked
in-progress (gray), the raised `CircularDependency` error reports exactly
the contiguous suffix of the current path starting at the first occurrence
of that node, followed by the node itself; concretely, the path-[A,B,C]
re-encountering-B input reports `[B, C, B]`, and a self-dependent task is
reported as `[A, A]`. -/
theorem claim_C4 :
    (∀ (dm : DepMap) (fuel : Nat) (task : Name) (s : DfsState),
      dictGet? s.colors task = some .gray → task ∈ s.path →
      dfsVisit dm (fuel + 1) task s =
        .error (.circular (s.path.drop (firstIdx s.path task) ++ [task]))) ∧
    resolve_dependencies [⟨"A", .single "B"⟩, ⟨"B", .single "C"⟩, ⟨"C", .single "B"⟩] =
      .error (.circular ["B", "C", "B"]) ∧
    resolve_dependencies [⟨"A", .single "A"⟩] = .error (.circular ["A", "A"]) := by
  refine ⟨?_, rfl, rfl⟩
  intro dm fuel task s h _hmem
  rw [dfsVisit_succ]
  simp only [h]
  rfl

/-- Witness for C4's general clause at a concrete gray state. -/
theorem claim_C4_witness :
    dictGet? (DfsState.mk [("A", Color.gray)] ["A"]).colors "A" = some .gray ∧
    "A" ∈ (DfsState.mk [("A", Color.gray)] ["A"]).path ∧
    dfsVisit [("A", ["A"])] 1 "A" (DfsState.mk [("A", Color.gray)] ["A"]) =
      .error (.circular ((["A"] : List Name).drop (firstIdx ["A"] "A") ++ ["A"])) :=
  ⟨rfl, by decide,
    claim_C4.1 [("A", ["A"])] 0 "A" (DfsState.mk [("A", Color.gray)] ["A"])
      rfl (by decide)⟩

/-! ## Reachability, acyclicity, and the decreasing measure -/

theorem Reaches.trans {dm : DepMap} {a b c : Name}
    (h1 : Reaches dm a b) (h2 : Reaches dm b c) : Reaches dm a c := by
  induction h2 with
  | direct hd => exact h1.tail hd
  | tail _ hd ih => exact ih.tail hd

theorem mem_keys_of_deps {dm : DepMap} {t d : Name} (hd : d ∈ depsOf dm t) :
    t ∈ dictKeys dm := by
  unfold depsOf at hd
  cases h : dictGet? dm t with
  | none => rw [h] at hd; cases hd
  | some l => exact mem_dictKeys_of_dictGet?_eq_some h

theorem closed_depsOf {dm : DepMap} (hC : Closed dm) {t d : Name}
    (hd : d ∈ depsOf dm t) : d ∈ dictKeys dm := by
  unfold depsOf at hd
  cases h : dictGet? dm t with
  | none => rw [h] at hd; cases hd
  | some l =>
    rw [h] at hd
    exact hC (t, l) (mem_of_dictGet?_eq_some h) d hd

theorem reaches_mem_keys {dm : DepMap} (hC : Closed dm) {a b : Name}
    (h : Reaches dm a b) : b ∈ dictKeys dm := by
  induction h with
  | direct hd => exact closed_depsOf hC hd
  | tail _ hd _ => exact closed_depsOf hC hd

theorem reachClose_mono {dm : DepMap} {t d : Name} (hd : d ∈ depsOf dm t) :
    reachClose dm d ⊆ reachClose dm t := by
  intro y hy
  rcases hy with hy | hy
  · exact Or.inr (hy ▸ Reaches.direct hd)
  · exact Or.inr ((Reaches.direct hd).trans hy)

theorem not_mem_reachClose {dm : DepMap} (hA : Acyclic dm) {t d : Name}
    (hd : d ∈ depsOf dm t) : ¬ t ∈ reachClose dm d := by
  rintro (h | h)
  · exact hA t (Reaches.direct (h ▸ hd))
  · exact hA t ((Reaches.direct hd).trans h)

theorem muSet_finite (dm : DepMap) (t : Name) : (muSet dm t).Finite :=
  Set.Finite.subset (List.finite_toSet (dictKeys dm)) (fun _ hy => hy.2)

theorem muSet_ncard_le (dm : DepMap) (t : Name) :
    (muSet dm t).ncard ≤ dm.length := by
  have h1 : (muSet dm t).ncard ≤ ({y | y ∈ dictKeys dm} : Set Name).ncard :=
    Set.ncard_le_ncard (fun _ hy => hy.2) (List.finite_toSet (dictKeys dm))
  have h2 : ({y | y ∈ dictKeys dm} : Set Name) = ↑(dictKeys dm).toFinset := by
    ext y; simp
  have h3 : ({y | y ∈ dictKeys dm} : Set Name).ncard ≤ dm.length := by
    rw [h2, Set.ncard_coe_Finset]
    calc (dictKeys dm).toFinset.card ≤ (dictKeys dm).length := (dictKeys dm).toFinset_card_le
      _ = dm.length := List.length_map _ _
  exact le_trans h1 h3

theorem muSet_ncard_lt {dm : DepMap} (hA : Acyclic dm) {t d : Name}
    (hd : d ∈ depsOf dm t) :
    (muSet dm d).ncard < (muSet dm t).ncard := by
  apply Set.ncard_lt_ncard
  · constructor
    · exact fun y hy => ⟨reachClose_mono hd hy.1, hy.2⟩
    · intro hsub
      have ht : t ∈ muSet dm t := ⟨Or.inl rfl, mem_keys_of_deps hd⟩
      exact not_mem_reachClose hA hd (hsub ht).1
  · exact muSet_finite dm t

/-- An explicit ranking certifies acyclicity (used to discharge `Acyclic`
at concrete inputs). -/
theorem acyclic_of_ranking (dm : DepMap) (f : Name → Nat)
    (h : ∀ t d, d ∈ depsOf dm t → f d < f t) : Acyclic dm := by
  have key : ∀ a b, Reaches dm a b → f b < f a := by
    intro a b hr
    induction hr with
    | direct hd => exact h _ _ hd
    | tail _ hd ih => exact lt_trans (h _ _ hd) ih
  exact fun t ht => lt_irrefl _ (key t t ht)

/-! ## The level computation: totality and correctness of the memoization -/

theorem le_foldl_max (l : List Nat) : ∀ a : Nat,
    a ≤ l.foldl Nat.max a ∧ ∀ x ∈ l, x ≤ l.foldl Nat.max a := by
  induction l with
  | nil => exact fun a => ⟨le_refl a, by simp⟩
  | cons b bs ih =>
    intro a
    rw [List.foldl_cons]
    constructor
    · exact le_trans (Nat.le_max_left a b) (ih (Nat.max a b)).1
    · intro x hx
      rcases List.mem_cons.mp hx with h | h
      · subst h
        exact le_trans (Nat.le_max_right a x) (ih (Nat.max a x)).1
      · exact (ih (Nat.max a b)).2 x h

theorem memoExtends_refl (lv : List (Name × Nat)) : memoExtends lv lv :=
  fun _ _ h => h

theorem memoExtends_trans {lv1 lv2 lv3 : List (Name × Nat)}
    (h1 : memoExtends lv1 lv2) (h2 : memoExtends lv2 lv3) : memoExtends lv1 lv3 :=
  fun n v h => h2 n v (h1 n v h)

theorem memoExtends_insert {lv : List (Name × Nat)} {t : Name} {v : Nat}
    (hkey : dictGet? lv t = none) : memoExtends lv (dictInsert lv t v) := by
  intro n w h
  have hnt : ¬ n = t := by
    intro hc
    rw [hc, hkey] at h
    cases h
  rw [dictGet?_dictInsert_ne _ _ _ _ hnt]
  exact h

theorem memoOK_insert {dm : DepMap} {lv : List (Name × Nat)} {t : Name} {v : Nat}
    (hok : MemoOK dm lv) (hkey : dictGet? lv t = none)
    (hv : (depsOf dm t = [] ∧ v = 0) ∨
      (depsOf dm t ≠ [] ∧ (∀ d ∈ depsOf dm t, ∃ w, dictGet? lv d = some w) ∧
        v = ((depsOf dm t).map (fun d => (dictGet? lv d).getD 0)).foldl Nat.max 0 + 1)) :
    MemoOK dm (dictInsert lv t v) := by
  have hpresice : ∀ n, (∀ d ∈ depsOf dm n, ∃ w, dictGet? lv d = some w) →
      (∀ d ∈ depsOf dm n, ∃ w, dictGet? (dictInsert lv t v) d = some w) ∧
      ((depsOf dm n).map (fun d => (dictGet? (dictInsert lv t v) d).getD 0)) =
        ((depsOf dm n).map (fun d => (dictGet? lv d).getD 0)) := by
    intro n hpres
    have hne : ∀ d ∈ depsOf dm n, dictGet? (dictInsert lv t v) d = dictGet? lv d := by
      intro d hd
      rcases hpres d hd with ⟨u, hu⟩
      have hdt : ¬ d = t := by
        intro hc
        rw [hc, hkey] at hu
        cases hu
      exact dictGet?_dictInsert_ne _ _ _ _ hdt
    constructor
    · intro d hd
      rcases hpres d hd with ⟨u, hu⟩
      exact ⟨u, by rw [hne d hd]; exact hu⟩
    · exact List.map_congr_left (fun d hd => by rw [hne d hd])
  intro n w hn
  by_cases hnt : n = t
  · subst hnt
    rw [dictGet?_dictInsert_self] at hn
    cases hn
    rcases hv with ⟨hd0, hv0⟩ | ⟨hdne, hpres, hveq⟩
    · exact ⟨fun _ => hv0, fun hne => absurd hd0 hne⟩
    · refine ⟨fun h0 => absurd h0 hdne, fun _ => ?_⟩
      rcases hpresice n hpres with ⟨hp, hmapeq⟩
      exact ⟨hp, by rw [hmapeq]; exact hveq⟩
  · rw [dictGet?_dictInsert_ne _ _ _ _ hnt] at hn
    have h := hok n w hn
    refine ⟨h.1, fun hne => ?_⟩
    rcases h.2 hne with ⟨hpres, hveq⟩
    rcases hpresice n hpres with ⟨hp, hmapeq⟩
    exact ⟨hp, by rw [hmapeq]; exact hveq⟩

/-- Main lemma about `get_level`: on an acyclic map, with any budget
strictly above the number of reachable keys and any consistent memo, the
call succeeds, returns a consistent extended memo containing the queried
name, and adds entries only for names in the reachable closure of the
query. -/
theorem getLevel_total {dm : DepMap} (hA : Acyclic dm) :
    ∀ N t, (muSet dm t).ncard ≤ N →
    ∀ fuel lv, MemoOK dm lv → N < fuel →
      ∃ v lv', getLevel dm fuel t lv = .ok (v, lv') ∧
        MemoOK dm lv' ∧ memoExtends lv lv' ∧ dictGet? lv' t = some v ∧
        ∀ n w, dictGet? lv' n = some w →
          dictGet? lv n = some w ∨ n ∈ reachClose dm t := by
  intro N
  induction N using Nat.strong_induction_on with
  | _ N ih =>
  intro t hcard fuel lv hok hfuel
  cases fuel with
  | zero => exact absurd hfuel (Nat.not_lt_zero N).elim
  | succ f =>
  cases hmem : dictGet? lv t with
  | some v =>
    refine ⟨v, lv, ?_, hok, memoExtends_refl lv, hmem, fun n w h => Or.inl h⟩
    rw [getLevel_succ]
    simp only [hmem]
  | none =>
    cases hdeps : depsOf dm t with
    | nil =>
      refine ⟨0, dictInsert lv t 0, ?_, ?_, memoExtends_insert hmem,
        dictGet?_dictInsert_self lv t 0, ?_⟩
      · rw [getLevel_succ]
        simp only [hmem, hdeps]
      · exact memoOK_insert hok hmem (Or.inl ⟨hdeps, rfl⟩)
      · intro n w h
        by_cases hnt : n = t
        · exact Or.inr (Or.inl hnt)
        · rw [dictGet?_dictInsert_ne _ _ _ _ hnt] at h
          exact Or.inl h
    | cons d0 ds0 =>
      -- the dependency loop
      have deploop : ∀ l : List Name, (∀ x ∈ l, x ∈ depsOf dm t) →
          ∀ lv1, MemoOK dm lv1 →
          (∀ n w, dictGet? lv1 n = some w →
            dictGet? lv n = some w ∨ ∃ x ∈ depsOf dm t, n ∈ reachClose dm x) →
          ∃ vs lv2, depLevels dm f l lv1 = .ok (vs, lv2) ∧ MemoOK dm lv2 ∧
            memoExtends lv1 lv2 ∧
            (∀ n w, dictGet? lv2 n = some w →
              dictGet? lv n = some w ∨ ∃ x ∈ depsOf dm t, n ∈ reachClose dm x) ∧
            vs = l.map (fun x => (dictGet? lv2 x).getD 0) ∧
            ∀ x ∈ l, ∃ w, dictGet? lv2 x = some w := by
        intro l
        induction l with
        | nil =>
          intro _ lv1 hok1 hnew1
          exact ⟨[], lv1, rfl, hok1, memoExtends_refl lv1, hnew1, rfl, by simp⟩
        | cons x xs ihl =>
          intro hsub lv1 hok1 hnew1
          have hx : x ∈ depsOf dm t := hsub x (List.mem_cons_self x xs)
          have hxcard : (muSet dm x).ncard < N :=
            lt_of_lt_of_le (muSet_ncard_lt hA hx) hcard
          have hxfuel : (muSet dm x).ncard < f := by
            have h1 := muSet_ncard_lt hA hx
            omega
          rcases ih (muSet dm x).ncard hxcard x le_rfl f lv1 hok1 hxfuel with
            ⟨v, lvx, hrun, hokx, hextx, hmemx, hnewx⟩
          rcases ihl (fun y hy => hsub y (List.mem_cons_of_mem x hy)) lvx hokx
              (fun n w h => by
                rcases hnewx n w h with h1 | h1
                · exact hnew1 n w h1
                · exact Or.inr ⟨x, hx, h1⟩) with
            ⟨vs2, lv2, hrun2, hok2, hext2, hnew2, hvs2, hpres2⟩
          refine ⟨v :: vs2, lv2, ?_, hok2, memoExtends_trans hextx hext2,
            hnew2, ?_, ?_⟩
          · simp only [depLevels, hrun, hrun2]
          · have hvx : dictGet? lv2 x = some v := hext2 x v hmemx
            rw [List.map_cons, hvx, ← hvs2]
            rfl
          · intro y hy
            rcases List.mem_cons.mp hy with h1 | h1
            · exact ⟨v, h1 ▸ hext2 x v hmemx⟩
            · exact hpres2 y h1
      rcases deploop (d0 :: ds0) (fun x hx => hdeps ▸ hx) lv hok
          (fun n w h => Or.inl h) with
        ⟨vs, lv2, hdl, hok2, hext2, hnew2, hvs, hpres⟩
      have hkey2 : dictGet? lv2 t = none := by
        cases hk : dictGet? lv2 t with
        | none => rfl
        | some w =>
          exfalso
          rcases hnew2 t w hk with h1 | ⟨x, hxd, h1⟩
          · rw [hmem] at h1; cases h1
          · rcases h1 with h1 | h1
            · exact hA t (Reaches.direct (h1 ▸ hxd))
            · exact hA t ((Reaches.direct hxd).trans h1)
      have hdne : depsOf dm t ≠ [] := by rw [hdeps]; simp
      refine ⟨vs.foldl Nat.max 0 + 1, dictInsert lv2 t (vs.foldl Nat.max 0 + 1),
        ?_, ?_, ?_, dictGet?_dictInsert_self _ _ _, ?_⟩
      · rw [getLevel_succ]
        simp only [hmem, hdeps, hdl]
      · refine memoOK_insert hok2 hkey2 (Or.inr ⟨hdne, ?_, ?_⟩)
        · intro d hd
          exact hpres d (hdeps ▸ hd)
        · rw [hdeps, ← hvs]
      · exact memoExtends_trans hext2 (memoExtends_insert hkey2)
      · intro n w h
        by_cases hnt : n = t
        · exact Or.inr (Or.inl hnt)
        · rw [dictGet?_dictInsert_ne _ _ _ _ hnt] at h
          rcases hnew2 n w h with h1 | ⟨x, hxd, h1⟩
          · exact Or.inl h1
          · exact Or.inr (reachClose_mono hxd h1)

/-- `getLevel` with the budget `get_task_levels` actually passes — always
sufficient on an acyclic map. -/
theorem getLevel_run {dm : DepMap} (hA : Acyclic dm) (t : Name)
    (lv : List (Name × Nat)) (hok : MemoOK dm lv) :
    ∃ v lv', getLevel dm (dm.length + 1) t lv = .ok (v, lv') ∧
      MemoOK dm lv' ∧ memoExtends lv lv' ∧ dictGet? lv' t = some v ∧
      ∀ n w, dictGet? lv' n = some w →
        dictGet? lv n = some w ∨ n ∈ reachClose dm t :=
  getLevel_total hA (muSet dm t).ncard t le_rfl (dm.length + 1) lv hok
    (Nat.lt_succ_of_le (muSet_ncard_le dm t))

theorem levelsAll_total {dm : DepMap} (hA : Acyclic dm) :
    ∀ (ks : List Name) (lv : List (Name × Nat)), MemoOK dm lv →
    ∃ lv', levelsAll dm ks lv = .ok lv' ∧ MemoOK dm lv' ∧ memoExtends lv lv' ∧
      (∀ k ∈ ks, ∃ w, dictGet? lv' k = some w) ∧
      ∀ n w, dictGet? lv' n = some w →
        dictGet? lv n = some w ∨ ∃ k ∈ ks, n ∈ reachClose dm k := by
  intro ks
  induction ks with
  | nil =>
    intro lv hok
    exact ⟨lv, rfl, hok, memoExtends_refl lv, by simp, fun n w h => Or.inl h⟩
  | cons k ks ih =>
    intro lv hok
    rcases getLevel_run hA k lv hok with ⟨v, lv1, hrun, hok1, hext1, hmem1, hnew1⟩
    rcases ih lv1 hok1 with ⟨lv', hrun', hok', hext', hpres', hnew'⟩
    refine ⟨lv', ?_, hok', memoExtends_trans hext1 hext', ?_, ?_⟩
    · simp only [levelsAll, hrun, hrun']
    · intro x hx
      rcases List.mem_cons.mp hx with h1 | h1
      · exact ⟨v, h1 ▸ hext' k v hmem1⟩
      · exact hpres' x h1
    · intro n w h
      rcases hnew' n w h with h1 | ⟨x, hx, h1⟩
      · rcases hnew1 n w h1 with h2 | h2
        · exact Or.inl h2
        · exact Or.inr ⟨k, List.mem_cons_self k ks, h2⟩
      · exact Or.inr ⟨x, List.mem_cons_of_mem k hx, h1⟩

/-- `get_task_levels` on an acyclic map: it succeeds, the result is a
consistent memo containing every key of the map, and every entry of the
result lies in the reachable closure of some key. -/
theorem get_task_levels_total {dm : DepMap} (hA : Acyclic dm) :
    ∃ lv, get_task_levels dm = .ok lv ∧ MemoOK dm lv ∧
      (∀ k ∈ dictKeys dm, ∃ w, dictGet? lv k = some w) ∧
      ∀ n w, dictGet? lv n = some w → ∃ k ∈ dictKeys dm, n ∈ reachClose dm k := by
  have hok0 : MemoOK dm [] := by
    intro t v h
    cases h
  rcases levelsAll_total hA (dictKeys dm) [] hok0 with
    ⟨lv, hrun, hok, _, hpres, hnew⟩
  refine ⟨lv, hrun, hok, hpres, fun n w h => ?_⟩
  rcases hnew n w h with h1 | h1
  · cases h1
  · exact h1

/-- Values recorded by a consistent memo are strictly monotone along
dependency edges. -/
theorem memoOK_lt {dm : DepMap} {lv : List (Name × Nat)} (hok : MemoOK dm lv)
    {t d : Name} {vt vd : Nat} (ht : dictGet? lv t = some vt)
    (hd : d ∈ depsOf dm t) (hdl : dictGet? lv d = some vd) : vd < vt := by
  have hne : depsOf dm t ≠ [] := by
    intro h0
    rw [h0] at hd
    cases hd
  rcases (hok t vt ht).2 hne with ⟨_, hveq⟩
  have hmem : vd ∈ (depsOf dm t).map (fun x => (dictGet? lv x).getD 0) :=
    List.mem_map.mpr ⟨d, hd, by rw [hdl]; rfl⟩
  have hle := (le_foldl_max _ 0).2 vd hmem
  omega

/-! ## Claims C5 and C10 -/

/-- C5: For every acyclic, referentially closed dependency map,
`get_task_levels` succeeds and assigns to each task `t` the value `0` if
`t` has no dependencies and otherwise one more than the maximum level of
`t`'s dependencies (all of which receive levels); consequently the level of
every dependency is strictly below the level of its dependent. -/
theorem claim_C5 (dm : DepMap) (_hC : Closed dm) (hA : Acyclic dm) :
    ∃ lv, get_task_levels dm = .ok lv ∧
      (∀ t ∈ dictKeys dm, ∃ v, dictGet? lv t = some v ∧
        (depsOf dm t = [] → v = 0) ∧
        (depsOf dm t ≠ [] →
          (∀ d ∈ depsOf dm t, ∃ w, dictGet? lv d = some w) ∧
          v = ((depsOf dm t).map (fun d => (dictGet? lv d).getD 0)).foldl Nat.max 0 + 1)) ∧
      ∀ t ∈ dictKeys dm, ∀ d ∈ depsOf dm t, ∀ vt vd,
        dictGet? lv t = some vt → dictGet? lv d = some vd → vd < vt := by
  rcases get_task_levels_total hA with ⟨lv, hrun, hok, hpres, _⟩
  refine ⟨lv, hrun, ?_, ?_⟩
  · intro t ht
    rcases hpres t ht with ⟨v, hv⟩
    exact ⟨v, hv, (hok t v hv).1, fun hne => (hok t v hv).2 hne⟩
  · intro t _ d hd vt vd hvt hvd
    exact memoOK_lt hok hvt hd hvd

/-- The three-task chain A ← B ← C is acyclic (via an explicit ranking). -/
theorem acyclic_chainABC : Acyclic [("A", []), ("B", ["A"]), ("C", ["B"])] := by
  apply acyclic_of_ranking _ (fun n => if n = "B" then 1 else if n = "C" then 2 else 0)
  intro t d hd
  simp only [depsOf, dictGet?] at hd
  split_ifs at hd with h1 h2 h3 <;> simp at hd <;> subst_vars <;> decide

/-- Witness for C5 at the concrete chain map. -/
theorem claim_C5_witness :
    Closed [("A", []), ("B", ["A"]), ("C", ["B"])] ∧
    Acyclic [("A", []), ("B", ["A"]), ("C", ["B"])] ∧
    ∃ lv, get_task_levels [("A", []), ("B", ["A"]), ("C", ["B"])] = .ok lv ∧
      (∀ t ∈ dictKeys [("A", ([] : List Name)), ("B", ["A"]), ("C", ["B"])],
        ∃ v, dictGet? lv t = some v ∧
        (depsOf [("A", []), ("B", ["A"]), ("C", ["B"])] t = [] → v = 0) ∧
        (depsOf [("A", []), ("B", ["A"]), ("C", ["B"])] t ≠ [] →
          (∀ d ∈ depsOf [("A", []), ("B", ["A"]), ("C", ["B"])] t,
            ∃ w, dictGet? lv d = some w) ∧
          v = ((depsOf [("A", []), ("B", ["A"]), ("C", ["B"])] t).map
              (fun d => (dictGet? lv d).getD 0)).foldl Nat.max 0 + 1)) ∧
      ∀ t ∈ dictKeys [("A", ([] : List Name)), ("B", ["A"]), ("C", ["B"])],
        ∀ d ∈ depsOf [("A", []), ("B", ["A"]), ("C", ["B"])] t, ∀ vt vd,
        dictGet? lv t = some vt → dictGet? lv d = some vd → vd < vt :=
  ⟨by decide, acyclic_chainABC,
    claim_C5 [("A", []), ("B", ["A"]), ("C", ["B"])] (by decide) acyclic_chainABC⟩

/-- C10 (amended: the map must also be acyclic): calling `get_task_levels`
directly on an acyclic map that lacks referential closure does not fail —
the missing name is read as having no dependencies
(`dependencies.get(task, [])`), is assigned level 0, and appears as a key of
the returned mapping even though it is not a key of the input. -/
theorem claim_C10 (dm : DepMap) (hA : Acyclic dm) (t g : Name)
    (hg : g ∈ depsOf dm t) (hgk : ¬ g ∈ dictKeys dm) :
    depsOf dm g = [] ∧
    ∃ lv, get_task_levels dm = .ok lv ∧ dictGet? lv g = some 0 ∧
      g ∈ dictKeys lv := by
  have hdg : depsOf dm g = [] := by
    unfold depsOf
    rw [dictGet?_eq_none_of_not_mem dm g hgk]
    rfl
  rcases get_task_levels_total hA with ⟨lv, hrun, hok, hpres, _⟩
  have ht : t ∈ dictKeys dm := mem_keys_of_deps hg
  rcases hpres t ht with ⟨vt, hvt⟩
  have hne : depsOf dm t ≠ [] := by
    intro h0
    rw [h0] at hg
    cases hg
  rcases (hok t vt hvt).2 hne with ⟨hpresd, _⟩
  rcases hpresd g hg with ⟨w, hw⟩
  have hw0 : w = 0 := (hok g w hw).1 hdg
  subst hw0
  exact ⟨hdg, lv, hrun, hw, mem_dictKeys_of_dictGet?_eq_some hw⟩

/-- C10 counterexample to the claim as stated: the map `{a: [a, g]}` lacks
referential closure (`g` is not a key), yet `get_task_levels` fails on it —
the memoized recursion chases the self-loop `a → a` before any memo entry
for `a` is written, so in Python the recursion never terminates
(`RecursionError`); in the model the depth budget runs out. -/
theorem claim_C10_counterexample :
    "g" ∈ depsOf [("a", ["a", "g"])] "a" ∧
    ¬ "g" ∈ dictKeys [("a", ["a", "g"])] ∧
    get_task_levels [("a", ["a", "g"])] = .error .stackOverflow :=
  ⟨by decide, by decide, rfl⟩

/-- The failure exhibited by the counterexample is a genuine divergence, not
an artifact of the model's particular budget: on `{a: [a, g]}`, `get_level`
of `"a"` exhausts every depth budget as long as `"a"` is not yet memoized
(which it is not when the entry call starts). -/
theorem getLevel_selfloop_diverges :
    ∀ (fuel : Nat) (lv : List (Name × Nat)), dictGet? lv "a" = none →
      getLevel [("a", ["a", "g"])] fuel "a" lv = .error .stackOverflow := by
  intro fuel
  induction fuel with
  | zero =>
    intro lv _
    rw [getLevel]
  | succ f ih =>
    intro lv h
    rw [getLevel_succ]
    simp only [h]
    have hd : depsOf [("a", ["a", "g"])] "a" = ["a", "g"] := rfl
    simp only [hd, depLevels, ih lv h]

/-- Witness for C10 (amended) at a concrete input: `{t: [g]}` with `g` not
a key. -/
theorem claim_C10_witness :
    Acyclic [("t", ["g"])] ∧
    "g" ∈ depsOf [("t", ["g"])] "t" ∧
    ¬ "g" ∈ dictKeys [("t", ["g"])] ∧
    (depsOf [("t", ["g"])] "g" = [] ∧
      ∃ lv, get_task_levels [("t", ["g"])] = .ok lv ∧
        dictGet? lv "g" = some 0 ∧ "g" ∈ dictKeys lv) := by
  have hA : Acyclic [("t", ["g"])] := by
    apply acyclic_of_ranking _ (fun n => if n = "t" then 1 else 0)
    intro t d hd
    simp only [depsOf, dictGet?] at hd
    split_ifs at hd with h1
    · simp at hd
      subst_vars
      decide
    · simp at hd
  exact ⟨hA, by decide, by decide,
    claim_C10 [("t", ["g"])] hA "t" "g" (by decide) (by decide)⟩

/-! ## Parallel groups: bucket characterization -/

theorem dictKeys_nodup_dictInsert {κ β : Type} [DecidableEq κ]
    {d : List (κ × β)} (h : (dictKeys d).Nodup) (k : κ) (v : β) :
    (dictKeys (dictInsert d k v)).Nodup := by
  by_cases hk : k ∈ dictKeys d
  · rw [dictKeys_dictInsert_mem d k v hk]
    exact h
  · rw [dictKeys_dictInsert_not_mem d k v hk]
    refine List.Nodup.append h (List.nodup_singleton k) ?_
    intro x hx hxk
    rw [List.mem_singleton.mp hxk] at hx
    exact hk hx

theorem mem_dictKeys_dictInsert {κ β : Type} [DecidableEq κ]
    (d : List (κ × β)) (k : κ) (v : β) (n : κ) :
    n ∈ dictKeys (dictInsert d k v) ↔ n = k ∨ n ∈ dictKeys d := by
  by_cases hk : k ∈ dictKeys d
  · rw [dictKeys_dictInsert_mem d k v hk]
    constructor
    · exact Or.inr
    · rintro (h | h)
      · exact h ▸ hk
      · exact h
  · rw [dictKeys_dictInsert_not_mem d k v hk, List.mem_append, List.mem_singleton]
    exact Or.comm

/-- The memo dict returned by `getLevel` has distinct keys whenever the
input memo does (entries are only ever written with `dictInsert`). -/
theorem getLevel_keys_nodup (dm : DepMap) : ∀ fuel : Nat,
    (∀ t lv v lv', getLevel dm fuel t lv = .ok (v, lv') →
      (dictKeys lv).Nodup → (dictKeys lv').Nodup) ∧
    (∀ l lv vs lv', depLevels dm fuel l lv = .ok (vs, lv') →
      (dictKeys lv).Nodup → (dictKeys lv').Nodup) := by
  have hB : ∀ fuel : Nat,
      (∀ t lv v lv', getLevel dm fuel t lv = .ok (v, lv') →
        (dictKeys lv).Nodup → (dictKeys lv').Nodup) →
      ∀ l lv vs lv', depLevels dm fuel l lv = .ok (vs, lv') →
        (dictKeys lv).Nodup → (dictKeys lv').Nodup := by
    intro fuel hA l
    induction l with
    | nil =>
      intro lv vs lv' h hnd
      cases h
      exact hnd
    | cons x xs ih =>
      intro lv vs lv' h hnd
      rw [depLevels] at h
      cases hx : getLevel dm fuel x lv with
      | error e => rw [hx] at h; cases h
      | ok p =>
        obtain ⟨v, lv1⟩ := p
        simp only [hx] at h
        cases hxs : depLevels dm fuel xs lv1 with
        | error e => simp [hxs] at h
        | ok q =>
          obtain ⟨vs2, lv2⟩ := q
          simp only [hxs] at h
          cases h
          exact ih lv1 vs2 lv' hxs (hA x lv v lv1 hx hnd)
  intro fuel
  induction fuel with
  | zero =>
    have hA : ∀ t lv v lv', getLevel dm 0 t lv = .ok (v, lv') →
        (dictKeys lv).Nodup → (dictKeys lv').Nodup := by
      intro t lv v lv' h
      rw [getLevel] at h
      cases h
    exact ⟨hA, hB 0 hA⟩
  | succ f ih =>
    have hA : ∀ t lv v lv', getLevel dm (f + 1) t lv = .ok (v, lv') →
        (dictKeys lv).Nodup → (dictKeys lv').Nodup := by
      intro t lv v lv' h hnd
      rw [getLevel_succ] at h
      cases hmem : dictGet? lv t with
      | some w =>
        simp only [hmem] at h
        cases h
        exact hnd
      | none =>
        simp only [hmem] at h
        cases hdeps : depsOf dm t with
        | nil =>
          simp only [hdeps] at h
          cases h
          exact dictKeys_nodup_dictInsert hnd t 0
        | cons d ds =>
          simp only [hdeps] at h
          cases hdl : depLevels dm f (d :: ds) lv with
          | error e => simp only [hdl] at h; cases h
          | ok q =>
            obtain ⟨vs2, lv2⟩ := q
            simp only [hdl] at h
            cases h
            exact dictKeys_nodup_dictInsert (hB f ih.1 _ lv vs2 lv2 hdl hnd) t _
    exact ⟨hA, hB _ hA⟩

theorem levelsAll_keys_nodup (dm : DepMap) : ∀ (ks : List Name) (lv lv' : List (Name × Nat)),
    levelsAll dm ks lv = .ok lv' → (dictKeys lv).Nodup → (dictKeys lv').Nodup := by
  intro ks
  induction ks with
  | nil =>
    intro lv lv' h hnd
    cases h
    exact hnd
  | cons k ks ih =>
    intro lv lv' h hnd
    rw [levelsAll] at h
    cases hk : getLevel dm (dm.length + 1) k lv with
    | error e => rw [hk] at h; cases h
    | ok p =>
      obtain ⟨v, lv1⟩ := p
      simp only [hk] at h
      exact ih lv1 lv' h ((getLevel_keys_nodup dm (dm.length + 1)).1 k lv v lv1 hk hnd)

theorem get_task_levels_keys_nodup {dm : DepMap} {lv : List (Name × Nat)}
    (h : get_task_levels dm = .ok lv) : (dictKeys lv).Nodup :=
  levelsAll_keys_nodup dm (dictKeys dm) [] lv h List.nodup_nil

/-- Characterization of the `groups` dict of `get_parallel_groups`: the
bucket of a level collects, in order, the names of the memo entries with
that level, and a bucket exists exactly for the levels that occur. -/
theorem bucketize_fold (lv : List (Name × Nat)) :
    ∀ gs : List (Nat × List Name), ∀ n : Nat,
      (dictGet? (lv.foldl
          (fun gs e => dictInsert gs e.2 ((dictGet? gs e.2).getD [] ++ [e.1])) gs) n).getD [] =
        (dictGet? gs n).getD [] ++ (lv.filter (fun p => decide (p.2 = n))).map Prod.fst ∧
      (n ∈ dictKeys (lv.foldl
          (fun gs e => dictInsert gs e.2 ((dictGet? gs e.2).getD [] ++ [e.1])) gs) ↔
        n ∈ dictKeys gs ∨ n ∈ lv.map Prod.snd) := by
  induction lv with
  | nil =>
    intro gs n
    simp
  | cons e rest ih =>
    intro gs n
    rw [List.foldl_cons]
    have hstep := ih (dictInsert gs e.2 ((dictGet? gs e.2).getD [] ++ [e.1])) n
    constructor
    · rw [hstep.1, List.filter_cons]
      by_cases hn : e.2 = n
      · rw [if_pos (by simpa using hn), ← hn, dictGet?_dictInsert_self]
        simp
      · rw [if_neg (by simpa using hn),
          dictGet?_dictInsert_ne gs e.2 n _ (fun hc => hn hc.symm)]
    · rw [hstep.2, mem_dictKeys_dictInsert, List.map_cons, List.mem_cons]
      constructor
      · rintro ((h | h) | h)
        · exact Or.inr (Or.inl h)
        · exact Or.inl h
        · exact Or.inr (Or.inr h)
      · rintro (h | h | h)
        · exact Or.inl (Or.inr h)
        · exact Or.inl (Or.inl h)
        · exact Or.inr h

theorem bucketize_get (lv : List (Name × Nat)) (n : Nat) :
    (dictGet? (bucketize lv) n).getD [] =
      (lv.filter (fun p => decide (p.2 = n))).map Prod.fst := by
  have h := (bucketize_fold lv [] n).1
  rw [bucketize]
  rw [h]
  rfl

theorem bucketize_mem_keys (lv : List (Name × Nat)) (n : Nat) :
    n ∈ dictKeys (bucketize lv) ↔ n ∈ lv.map Prod.snd := by
  have h := (bucketize_fold lv [] n).2
  rw [bucketize, h]
  simp [dictKeys]

theorem bucketize_keys_nodup (lv : List (Name × Nat)) :
    (dictKeys (bucketize lv)).Nodup := by
  rw [bucketize]
  have : ∀ gs : List (Nat × List Name), (dictKeys gs).Nodup →
      (dictKeys (lv.foldl
        (fun gs e => dictInsert gs e.2 ((dictGet? gs e.2).getD [] ++ [e.1])) gs)).Nodup := by
    induction lv with
    | nil => exact fun gs h => h
    | cons e rest ih =>
      intro gs h
      rw [List.foldl_cons]
      exact ih _ (dictKeys_nodup_dictInsert h e.2 _)
  exact this [] List.nodup_nil

/-- Members of a bucket are exactly the names paired with that level. -/
theorem bucketize_bucket_mem (lv : List (Name × Nat)) (n : Nat) (x : Name) :
    x ∈ (dictGet? (bucketize lv) n).getD [] ↔ (x, n) ∈ lv := by
  rw [bucketize_get, List.mem_map]
  constructor
  · rintro ⟨p, hp, hx⟩
    have hmem := List.mem_filter.mp hp
    have hn : p.2 = n := by simpa using hmem.2
    have : p = (x, n) := by
      cases p
      cases hx
      cases hn
      rfl
    exact this ▸ hmem.1
  · intro h
    exact ⟨(x, n), List.mem_filter.mpr ⟨h, by simp⟩, rfl⟩

/-- Strict level decrease along transitive dependency: recorded levels drop
along `Reaches` whenever every key has an entry. -/
theorem memoOK_reaches_lt {dm : DepMap} {lv : List (Name × Nat)}
    (hok : MemoOK dm lv)
    (hkeys : ∀ k ∈ dictKeys dm, ∃ w, dictGet? lv k = some w)
    {a b : Name} {va vb : Nat} (hr : Reaches dm a b)
    (ha : dictGet? lv a = some va) (hb : dictGet? lv b = some vb) : vb < va := by
  induction hr generalizing vb with
  | direct hd => exact memoOK_lt hok ha hd hb
  | tail hr' hd ih =>
    rename_i u _
    have hu : u ∈ dictKeys dm := mem_keys_of_deps hd
    rcases hkeys u hu with ⟨vu, hvu⟩
    exact lt_trans (memoOK_lt hok hvu hd hb) (ih hvu)

/-! ## Claim C6 -/

/-- C6: For every dependency map accepted by resolve (distinct keys,
referentially closed, acyclic), `get_parallel_groups` succeeds, the returned
groups concatenate to a permutation of the task-name set (every task appears,
no duplicates), and within any single group no task is a direct or transitive
dependency of another task of the same group. -/
theorem claim_C6 (dm : DepMap) (_hK : KeysNodup dm) (hC : Closed dm)
    (hA : Acyclic dm) :
    ∃ gs, get_parallel_groups dm = .ok gs ∧
      (∀ x, x ∈ gs.flatten ↔ x ∈ dictKeys dm) ∧
      gs.flatten.Nodup ∧
      ∀ g ∈ gs, ∀ a ∈ g, ∀ b ∈ g, ¬ Reaches dm a b := by
  rcases get_task_levels_total hA with ⟨lv, hrun, hok, hpres, hnew⟩
  have hlvnd : (dictKeys lv).Nodup := get_task_levels_keys_nodup hrun
  have hlv_iff : ∀ x, x ∈ dictKeys lv ↔ x ∈ dictKeys dm := by
    intro x
    constructor
    · intro hx
      rcases dictGet?_isSome_of_mem hx with ⟨w, hw⟩
      rcases hnew x w hw with ⟨k, hk, h1 | h1⟩
      · exact h1 ▸ hk
      · exact reaches_mem_keys hC h1
    · intro hx
      rcases hpres x hx with ⟨w, hw⟩
      exact mem_dictKeys_of_dictGet?_eq_some hw
  have hout : get_parallel_groups dm =
      .ok ((((bucketize lv).map Prod.fst).insertionSort (· ≤ ·)).map
        (fun n => (dictGet? (bucketize lv) n).getD [])) := by
    rw [get_parallel_groups, hrun]
  have hperm : (((bucketize lv).map Prod.fst).insertionSort (· ≤ ·)).Perm
      ((bucketize lv).map Prod.fst) := List.perm_insertionSort _ _
  have hsorted_mem : ∀ n, n ∈ ((bucketize lv).map Prod.fst).insertionSort (· ≤ ·) ↔
      n ∈ dictKeys (bucketize lv) := fun n => hperm.mem_iff
  refine ⟨_, hout, ?_, ?_, ?_⟩
  · intro x
    rw [List.mem_flatten]
    constructor
    · rintro ⟨g, hg, hx⟩
      rcases List.mem_map.mp hg with ⟨n, _, rfl⟩
      have h1 := (bucketize_bucket_mem lv n x).mp hx
      exact (hlv_iff x).mp (List.mem_map_of_mem Prod.fst h1)
    · intro hx
      rcases hpres x hx with ⟨w, hw⟩
      have hmemlv : (x, w) ∈ lv := mem_of_dictGet?_eq_some hw
      have hws : w ∈ ((bucketize lv).map Prod.fst).insertionSort (· ≤ ·) := by
        rw [hsorted_mem, bucketize_mem_keys]
        exact List.mem_map_of_mem Prod.snd hmemlv
      exact ⟨(dictGet? (bucketize lv) w).getD [], List.mem_map_of_mem _ hws,
        (bucketize_bucket_mem lv w x).mpr hmemlv⟩
  · rw [List.nodup_flatten]
    constructor
    · intro g hg
      rcases List.mem_map.mp hg with ⟨n, _, rfl⟩
      rw [bucketize_get]
      exact List.Nodup.sublist (List.Sublist.map Prod.fst (List.filter_sublist lv)) hlvnd
    · have hsortednd : (((bucketize lv).map Prod.fst).insertionSort (· ≤ ·)).Nodup :=
        hperm.nodup_iff.mpr (bucketize_keys_nodup lv)
      refine List.Pairwise.map _ ?_ hsortednd
      intro m n hmn x hxm hxn
      have h1 := (bucketize_bucket_mem lv m x).mp hxm
      have h2 := (bucketize_bucket_mem lv n x).mp hxn
      exact hmn (Option.some.inj
        ((dictGet?_of_mem_nodup hlvnd h1).symm.trans (dictGet?_of_mem_nodup hlvnd h2)))
  · intro g hg a ha b hb hr
    rcases List.mem_map.mp hg with ⟨n, _, rfl⟩
    have h1 := (bucketize_bucket_mem lv n a).mp ha
    have h2 := (bucketize_bucket_mem lv n b).mp hb
    have ha' := dictGet?_of_mem_nodup hlvnd h1
    have hb' := dictGet?_of_mem_nodup hlvnd h2
    exact lt_irrefl n (memoOK_reaches_lt hok hpres hr ha' hb')

/-- Witness for C6 at the concrete chain map. -/
theorem claim_C6_witness :
    KeysNodup [("A", []), ("B", ["A"]), ("C", ["B"])] ∧
    Closed [("A", []), ("B", ["A"]), ("C", ["B"])] ∧
    Acyclic [("A", []), ("B", ["A"]), ("C", ["B"])] ∧
    ∃ gs, get_parallel_groups [("A", []), ("B", ["A"]), ("C", ["B"])] = .ok gs ∧
      (∀ x, x ∈ gs.flatten ↔
        x ∈ dictKeys [("A", ([] : List Name)), ("B", ["A"]), ("C", ["B"])]) ∧
      gs.flatten.Nodup ∧
      ∀ g ∈ gs, ∀ a ∈ g, ∀ b ∈ g,
        ¬ Reaches [("A", []), ("B", ["A"]), ("C", ["B"])] a b :=
  ⟨by decide, by decide, acyclic_chainABC,
    claim_C6 [("A", []), ("B", ["A"]), ("C", ["B"])] (by decide) (by decide)
      acyclic_chainABC⟩

/-! ## Kahn's algorithm: auxiliary list lemmas -/

theorem firstIdx_append_left {l : List Name} {x : Name} (h : x ∈ l) (l' : List Name) :
    firstIdx (l ++ l') x = firstIdx l x := by
  induction l with
  | nil => cases h
  | cons a as ih =>
    by_cases ha : a = x
    · rw [List.cons_append, firstIdx, if_pos ha, firstIdx, if_pos ha]
    · have h' : x ∈ as := by
        rcases List.mem_cons.mp h with h1 | h1
        · exact absurd h1.symm ha
        · exact h1
      rw [List.cons_append, firstIdx, if_neg ha, firstIdx, if_neg ha, ih h']

theorem firstIdx_lt_length {l : List Name} {x : Name} (h : x ∈ l) :
    firstIdx l x < l.length := by
  induction l with
  | nil => cases h
  | cons a as ih =>
    by_cases ha : a = x
    · rw [firstIdx, if_pos ha]
      simp
    · have h' : x ∈ as := by
        rcases List.mem_cons.mp h with h1 | h1
        · exact absurd h1.symm ha
        · exact h1
      rw [firstIdx, if_neg ha, List.length_cons]
      exact Nat.succ_lt_succ (ih h')

theorem firstIdx_append_self {l : List Name} {p : Name} (h : ¬ p ∈ l) :
    firstIdx (l ++ [p]) p = l.length := by
  induction l with
  | nil => simp [firstIdx]
  | cons a as ih =>
    have ha : ¬ a = p := fun hc => h (hc ▸ List.mem_cons_self a as)
    have h' : ¬ p ∈ as := fun hc => h (List.mem_cons_of_mem a hc)
    rw [List.cons_append, firstIdx, if_neg ha, ih h', List.length_cons]

/-- If exactly one more than the `result`-members of `l` is counted and the
only candidate is `p`, every entry of `l` is in `result` or equals `p`. -/
theorem filter_not_mem_singleton {l r : List Name} {p : Name}
    (hp : p ∈ l) (hpr : ¬ p ∈ r)
    (hlen : (l.filter (fun d => decide (d ∈ r))).length + 1 = l.length) :
    ∀ d ∈ l, d ∈ r ∨ d = p := by
  have hpart : l.length = (l.filter (fun d => decide (d ∈ r))).length +
      (l.filter (fun d => !(decide (d ∈ r)))).length :=
    List.length_eq_length_filter_add _
  have hneg : (l.filter (fun d => !(decide (d ∈ r)))).length = 1 := by omega
  have hpn : p ∈ l.filter (fun d => !(decide (d ∈ r))) :=
    List.mem_filter.mpr ⟨hp, by simpa using hpr⟩
  have hsingle : l.filter (fun d => !(decide (d ∈ r))) = [p] := by
    cases hf : l.filter (fun d => !(decide (d ∈ r))) with
    | nil => rw [hf] at hpn; cases hpn
    | cons a as =>
      rw [hf] at hneg hpn
      have has : as = [] := List.length_eq_zero.mp (by simpa using hneg)
      subst has
      have : p = a := by simpa using hpn
      rw [this]
  intro d hd
  by_cases hdr : d ∈ r
  · exact Or.inl hdr
  · have : d ∈ l.filter (fun x => !(decide (x ∈ r))) :=
      List.mem_filter.mpr ⟨hd, by simpa using hdr⟩
    rw [hsingle] at this
    exact Or.inr (List.mem_singleton.mp this)

/-- Appending a new name to `result` removes exactly one name from the
not-yet-emitted count over a duplicate-free key list. -/
theorem countP_not_mem_append {K : List Name} (hnd : K.Nodup) {p : Name}
    (hp : p ∈ K) {r : List Name} (hpr : ¬ p ∈ r) :
    K.countP (fun t => decide (¬ t ∈ r ++ [p])) + 1 =
      K.countP (fun t => decide (¬ t ∈ r)) := by
  induction K with
  | nil => cases hp
  | cons x xs ih =>
    have hnd' := List.nodup_cons.mp hnd
    rcases List.mem_cons.mp hp with h1 | h1
    · subst h1
      have habs : ∀ t ∈ xs, (decide (¬ t ∈ r ++ [p]) = true ↔
          decide (¬ t ∈ r) = true) := by
        intro t ht
        have htx : ¬ t = p := fun hc => hnd'.1 (hc ▸ ht)
        simp [List.mem_append, htx]
      rw [List.countP_cons, List.countP_cons, List.countP_congr habs]
      have h2 : (decide (¬ p ∈ r ++ [p]) : Bool) = false := by simp
      have h3 : (decide (¬ p ∈ r) : Bool) = true := by simpa using hpr
      rw [h2, h3]
      simp
    · have hx1 : (decide (¬ x ∈ r ++ [p]) : Bool) = decide (¬ x ∈ r) := by
        have hxp : ¬ x = p := fun hc => hnd'.1 (hc ▸ h1)
        simp [List.mem_append, hxp]
      have hih := ih hnd'.2 h1
      rw [List.countP_cons, List.countP_cons, hx1]
      cases hb : (decide (¬ x ∈ r) : Bool)
      · simp only [Bool.false_eq_true, if_false]
        omega
      · simp only [if_true]
        omega

/-! ## Kahn's algorithm: entry and in-degree dictionary lemmas -/

theorem depsOf_eq_of_mem {dm : DepMap} (hK : (dictKeys dm).Nodup) {t : Name}
    {l : List Name} (h : (t, l) ∈ dm) : depsOf dm t = l := by
  unfold depsOf
  rw [dictGet?_of_mem_nodup hK h]
  rfl

theorem entry_of_mem_keys {dm : DepMap} {t : Name} (h : t ∈ dictKeys dm) :
    (t, depsOf dm t) ∈ dm := by
  rcases dictGet?_isSome_of_mem h with ⟨l, hl⟩
  have : depsOf dm t = l := by
    unfold depsOf
    rw [hl]
    rfl
  rw [this]
  exact mem_of_dictGet?_eq_some hl

theorem dictKeys_initInDegree (dm : DepMap) :
    dictKeys (initInDegree dm) = dictKeys dm := by
  simp [initInDegree, dictKeys]

theorem initInDegree_get {dm : DepMap} (hK : (dictKeys dm).Nodup) {t : Name}
    {l : List Name} (h : (t, l) ∈ dm) :
    dictGet? (initInDegree dm) t = some ((l.length : Int)) := by
  have hmem : (t, (l.length : Int)) ∈ initInDegree dm := by
    rw [initInDegree]
    exact List.mem_map.mpr ⟨(t, l), h, rfl⟩
  have hnd : (dictKeys (initInDegree dm)).Nodup := by
    rw [dictKeys_initInDegree]
    exact hK
  exact dictGet?_of_mem_nodup hnd hmem

/-- Effect of one pass of the decrement loop (lines 124-129) over the whole
map: every task listing the popped name has its in-degree decremented (once,
regardless of how often the name occurs in its list), all other counters are
untouched, and exactly the tasks whose decremented counter hits zero are
appended to the queue, in map order. -/
theorem processPop_spec (p : Name) :
    ∀ dm : DepMap, (dictKeys dm).Nodup →
    ∀ (deg : List (Name × Int)) (q : List Name),
      (∀ t l, (t, l) ∈ dm → p ∈ l →
        dictGet? (processPop dm p (deg, q)).1 t =
          some ((dictGet? deg t).getD 0 - 1)) ∧
      (∀ t, (∀ l, (t, l) ∈ dm → ¬ p ∈ l) →
        dictGet? (processPop dm p (deg, q)).1 t = dictGet? deg t) ∧
      (processPop dm p (deg, q)).2 =
        q ++ (dm.filter (fun e => decide (p ∈ e.2) &&
          decide (((dictGet? deg e.1).getD 0 - 1 : Int) = 0))).map Prod.fst := by
  intro dm
  induction dm with
  | nil =>
    intro _ deg q
    refine ⟨?_, ?_, ?_⟩
    · intro t l h
      cases h
    · intro t _
      rfl
    · simp [processPop]
  | cons e dm' ih =>
    intro hnd deg q
    rw [dictKeys_cons] at hnd
    have hnd' := List.nodup_cons.mp hnd
    have hkeyne : ∀ e' ∈ dm', ¬ e'.1 = e.1 := by
      intro e' he' hc
      exact hnd'.1 (hc ▸ List.mem_map_of_mem Prod.fst he')
    by_cases hpe : p ∈ e.2
    · have hcons : processPop (e :: dm') p (deg, q) =
          processPop dm' p (dictInsert deg e.1 ((dictGet? deg e.1).getD 0 - 1),
            if ((dictGet? deg e.1).getD 0 - 1 : Int) = 0 then q ++ [e.1] else q) := by
        simp only [processPop, List.foldl_cons]
        rw [if_pos hpe]
      rcases ih hnd'.2 (dictInsert deg e.1 ((dictGet? deg e.1).getD 0 - 1))
          (if ((dictGet? deg e.1).getD 0 - 1 : Int) = 0 then q ++ [e.1] else q) with
        ⟨ih1, ih2, ih3⟩
      refine ⟨?_, ?_, ?_⟩
      · intro t l hmem hpl
        rw [hcons]
        rcases List.mem_cons.mp hmem with h1 | h1
        · have ht : t = e.1 := by rw [← h1]
          subst ht
          have hvac : ∀ l', (e.1, l') ∈ dm' → ¬ p ∈ l' := by
            intro l' hl'
            exact absurd (List.mem_map_of_mem Prod.fst hl') hnd'.1
          rw [ih2 e.1 hvac, dictGet?_dictInsert_self]
        · have htne : ¬ t = e.1 := by
            intro hc
            exact hnd'.1 (hc ▸ List.mem_map_of_mem Prod.fst h1)
          rw [ih1 t l h1 hpl, dictGet?_dictInsert_ne deg e.1 t _ htne]
      · intro t hvac
        rw [hcons]
        have htne : ¬ t = e.1 := by
          intro hc
          exact hvac e.2 (by rw [hc]; exact List.mem_cons_self e dm') hpe
        rw [ih2 t (fun l' hl' => hvac l' (List.mem_cons_of_mem e hl')),
          dictGet?_dictInsert_ne deg e.1 t _ htne]
      · rw [hcons, ih3]
        have hfc : dm'.filter (fun e' => decide (p ∈ e'.2) &&
            decide (((dictGet? (dictInsert deg e.1
              ((dictGet? deg e.1).getD 0 - 1)) e'.1).getD 0 - 1 : Int) = 0)) =
          dm'.filter (fun e' => decide (p ∈ e'.2) &&
            decide (((dictGet? deg e'.1).getD 0 - 1 : Int) = 0)) := by
          apply List.filter_congr
          intro e' he'
          rw [dictGet?_dictInsert_ne deg e.1 e'.1 _ (hkeyne e' he')]
        rw [hfc, List.filter_cons]
        have hce : (decide (p ∈ e.2) &&
            decide (((dictGet? deg e.1).getD 0 - 1 : Int) = 0)) =
            decide (((dictGet? deg e.1).getD 0 - 1 : Int) = 0) := by
          simp [hpe]
        rw [hce]
        by_cases hz : ((dictGet? deg e.1).getD 0 - 1 : Int) = 0
        · rw [if_pos hz, if_pos (by simpa using hz)]
          simp
        · rw [if_neg hz, if_neg (by simpa using hz)]
    · have hcons : processPop (e :: dm') p (deg, q) = processPop dm' p (deg, q) := by
        simp only [processPop, List.foldl_cons]
        rw [if_neg hpe]
      rcases ih hnd'.2 deg q with ⟨ih1, ih2, ih3⟩
      refine ⟨?_, ?_, ?_⟩
      · intro t l hmem hpl
        rw [hcons]
        rcases List.mem_cons.mp hmem with h1 | h1
        · exfalso
          have hle : l = e.2 := by rw [← h1]
          exact hpe (hle ▸ hpl)
        · exact ih1 t l h1 hpl
      · intro t hvac
        rw [hcons]
        exact ih2 t (fun l' hl' => hvac l' (List.mem_cons_of_mem e hl'))
      · rw [hcons, ih3, List.filter_cons]
        have hce : (decide (p ∈ e.2) &&
            decide (((dictGet? deg e.1).getD 0 - 1 : Int) = 0)) = false := by
          simp [hpe]
        rw [hce]
        simp

theorem entry_unique {dm : DepMap} (hK : (dictKeys dm).Nodup) {t : Name}
    {l l' : List Name} (h : (t, l) ∈ dm) (h' : (t, l') ∈ dm) : l = l' :=
  Option.some.inj
    ((dictGet?_of_mem_nodup hK h).symm.trans (dictGet?_of_mem_nodup hK h'))

theorem filter_mem_append_singleton {l r : List Name} {p : Name} (hnd : l.Nodup)
    (hp : p ∈ l) (hpr : ¬ p ∈ r) :
    (l.filter (fun d => decide (d ∈ r ++ [p]))).length =
      (l.filter (fun d => decide (d ∈ r))).length + 1 := by
  induction l with
  | nil => cases hp
  | cons a as ih =>
    have hnd' := List.nodup_cons.mp hnd
    rcases List.mem_cons.mp hp with h1 | h1
    · subst h1
      have htail : as.filter (fun d => decide (d ∈ r ++ [p])) =
          as.filter (fun d => decide (d ∈ r)) := by
        apply List.filter_congr
        intro d hd
        have hda : ¬ d = p := fun hc => hnd'.1 (hc ▸ hd)
        simp [List.mem_append, hda]
      rw [List.filter_cons, List.filter_cons, htail]
      have h2 : (decide (p ∈ r ++ [p]) : Bool) = true := by simp
      have h3 : (decide (p ∈ r) : Bool) = false := by simpa using hpr
      rw [h2, h3]
      simp
    · have hap : ¬ a = p := fun hc => hnd'.1 (hc ▸ h1)
      have hhead : (decide (a ∈ r ++ [p]) : Bool) = decide (a ∈ r) := by
        simp [List.mem_append, hap]
      rw [List.filter_cons, List.filter_cons, hhead]
      cases hb : (decide (a ∈ r) : Bool)
      · simpa using ih hnd'.2 h1
      · simpa using ih hnd'.2 h1

theorem filter_mem_append_singleton_not {l r : List Name} {p : Name}
    (hp : ¬ p ∈ l) :
    l.filter (fun d => decide (d ∈ r ++ [p])) =
      l.filter (fun d => decide (d ∈ r)) := by
  apply List.filter_congr
  intro d hd
  have hdp : ¬ d = p := fun hc => hp (hc ▸ hd)
  simp [List.mem_append, hdp]

/-- Completeness of the exhausted Kahn loop: if every map entry whose
dependencies were all emitted has itself been emitted, then — by descending
induction along the (acyclic, closed) dependency order — every key has been
emitted. -/
theorem kahn_complete (dm : DepMap) (hC : Closed dm) (hA : Acyclic dm)
    (result : List Name)
    (h6 : ∀ t l, (t, l) ∈ dm → (∀ d ∈ l, d ∈ result) → t ∈ result) :
    ∀ x ∈ dictKeys dm, x ∈ result := by
  have main : ∀ N, ∀ x ∈ dictKeys dm, (muSet dm x).ncard ≤ N → x ∈ result := by
    intro N
    induction N using Nat.strong_induction_on with
    | _ N ih =>
    intro x hx hcard
    apply h6 x (depsOf dm x) (entry_of_mem_keys hx)
    intro d hd
    have hdk : d ∈ dictKeys dm := closed_depsOf hC hd
    have hlt : (muSet dm d).ncard < (muSet dm x).ncard := muSet_ncard_lt hA hd
    exact ih (muSet dm d).ncard (lt_of_lt_of_le hlt hcard) d hdk le_rfl
  exact fun x hx => main (muSet dm x).ncard x hx le_rfl

/-- Master invariant lemma for the `while queue:` loop of
`get_execution_order` on a well-formed map (distinct keys, closed, acyclic,
duplicate-free dependency lists).  Invariants, in order: emitted-and-queued
names are distinct and are keys; the in-degree dict holds each task's
dependency count minus its already-emitted dependencies; queued tasks have
all dependencies emitted; emitted tasks follow all their dependencies; any
task whose dependencies are all emitted has been emitted or queued; the
budget covers the tasks still to emit. -/
theorem kahnRun_spec (dm : DepMap) (hK : (dictKeys dm).Nodup) (hC : Closed dm)
    (hA : Acyclic dm) (hD : DepListsNodup dm) :
    ∀ (fuel : Nat) (queue result : List Name) (deg : List (Name × Int)),
      (result ++ queue).Nodup →
      (∀ x ∈ result ++ queue, x ∈ dictKeys dm) →
      (∀ t l, (t, l) ∈ dm → dictGet? deg t =
        some ((l.length : Int) - ((l.filter (fun d => decide (d ∈ result))).length : Int))) →
      (∀ t ∈ queue, ∀ d ∈ depsOf dm t, d ∈ result) →
      (∀ t ∈ result, ∀ d ∈ depsOf dm t,
        d ∈ result ∧ firstIdx result d < firstIdx result t) →
      (∀ t l, (t, l) ∈ dm → (∀ d ∈ l, d ∈ result) → t ∈ result ∨ t ∈ queue) →
      (dictKeys dm).countP (fun t => decide (¬ t ∈ result)) ≤ fuel →
      (∀ x ∈ dictKeys dm, x ∈ kahnRun dm fuel queue result deg) ∧
      (kahnRun dm fuel queue result deg).Nodup ∧
      (∀ x ∈ kahnRun dm fuel queue result deg, x ∈ dictKeys dm) ∧
      (∀ t ∈ kahnRun dm fuel queue result deg, ∀ d ∈ depsOf dm t,
        d ∈ kahnRun dm fuel queue result deg ∧
        firstIdx (kahnRun dm fuel queue result deg) d <
          firstIdx (kahnRun dm fuel queue result deg) t) := by
  intro fuel
  induction fuel with
  | zero =>
    intro queue result deg h1 h2 _h3 _h4 h5 _h6 hfuel
    have hall : ∀ x ∈ dictKeys dm, x ∈ result := by
      intro x hx
      have h0 : (dictKeys dm).countP (fun t => decide (¬ t ∈ result)) = 0 :=
        Nat.le_zero.mp hfuel
      have := List.countP_eq_zero.mp h0 x hx
      simpa using this
    exact ⟨hall, (List.nodup_append.mp h1).1,
      fun x hx => h2 x (List.mem_append_left _ hx),
      fun t ht d hd => h5 t ht d hd⟩
  | succ f ihf =>
    intro queue result deg h1 h2 h3 h4 h5 h6 hfuel
    cases queue with
    | nil =>
      have hall : ∀ x ∈ dictKeys dm, x ∈ result := by
        apply kahn_complete dm hC hA result
        intro t l hmem hld
        rcases h6 t l hmem hld with h | h
        · exact h
        · cases h
      refine ⟨hall, ?_, ?_, ?_⟩
      · exact (List.nodup_append.mp h1).1
      · exact fun x hx => h2 x (List.mem_append_left _ hx)
      · exact fun t ht d hd => h5 t ht d hd
    | cons p rest =>
      rcases List.nodup_append.mp h1 with ⟨hrnd, hqnd, hdisj⟩
      have hpnotr : ¬ p ∈ result := fun hc => hdisj hc (List.mem_cons_self p rest)
      have hpkeys : p ∈ dictKeys dm :=
        h2 p (List.mem_append_right _ (List.mem_cons_self p rest))
      rcases processPop_spec p dm hK deg rest with ⟨pp1, pp2, pp3⟩
      have hstep : kahnRun dm (f + 1) (p :: rest) result deg =
          kahnRun dm f (processPop dm p (deg, rest)).2 (result ++ [p])
            (processPop dm p (deg, rest)).1 := rfl
      set deg' := (processPop dm p (deg, rest)).1 with hdeg'
      set enq := (dm.filter (fun e => decide (p ∈ e.2) &&
        decide (((dictGet? deg e.1).getD 0 - 1 : Int) = 0))).map Prod.fst with henq
      have hq' : (processPop dm p (deg, rest)).2 = rest ++ enq := pp3
      -- characterizations of the freshly enqueued tasks
      have henq_elim : ∀ t ∈ enq, ∃ l, (t, l) ∈ dm ∧ p ∈ l ∧
          ((dictGet? deg t).getD 0 - 1 : Int) = 0 := by
        intro t ht
        rw [henq] at ht
        rcases List.mem_map.mp ht with ⟨⟨t', l⟩, he, hfst⟩
        have hef := List.mem_filter.mp he
        have hcond := hef.2
        simp only [decide_eq_true_eq, Bool.and_eq_true] at hcond
        cases hfst
        exact ⟨l, hef.1, hcond.1, hcond.2⟩
      have henq_intro : ∀ t l, (t, l) ∈ dm → p ∈ l →
          ((dictGet? deg t).getD 0 - 1 : Int) = 0 → t ∈ enq := by
        intro t l hm hp hz
        rw [henq]
        exact List.mem_map.mpr ⟨(t, l),
          List.mem_filter.mpr ⟨hm, by simp [hp, hz]⟩, rfl⟩
      -- a task with all dependencies emitted has in-degree exactly zero
      have hdeg_zero : ∀ t l, (t, l) ∈ dm → (∀ d ∈ l, d ∈ result) →
          (dictGet? deg t).getD 0 = (0 : Int) := by
        intro t l hm hall
        have hfeq : l.filter (fun d => decide (d ∈ result)) = l :=
          List.filter_eq_self.mpr (fun a ha => by simpa using hall a ha)
        rw [h3 t l hm]
        rw [hfeq]
        simp
      have henq_fresh : ∀ t ∈ enq, ¬ (t ∈ result ∨ t ∈ p :: rest) := by
        intro t ht hold
        rcases henq_elim t ht with ⟨l, hm, hpl, hz⟩
        have hall : ∀ d ∈ l, d ∈ result := by
          rcases hold with hold | hold
          · intro d hd
            have := h5 t hold d (by rw [depsOf_eq_of_mem hK hm]; exact hd)
            exact this.1
          · intro d hd
            exact h4 t hold d (by rw [depsOf_eq_of_mem hK hm]; exact hd)
        rw [hdeg_zero t l hm hall] at hz
        omega
      have henq_keys : ∀ t ∈ enq, t ∈ dictKeys dm := by
        intro t ht
        rcases henq_elim t ht with ⟨l, hm, _, _⟩
        exact List.mem_map_of_mem Prod.fst hm
      have henq_ready : ∀ t ∈ enq, ∀ d ∈ depsOf dm t, d ∈ result ++ [p] := by
        intro t ht d hd
        rcases henq_elim t ht with ⟨l, hm, hpl, hz⟩
        rw [depsOf_eq_of_mem hK hm] at hd
        have hlen : (l.filter (fun d => decide (d ∈ result))).length + 1 = l.length := by
          have h3t := h3 t l hm
          rw [h3t] at hz
          simp only [Option.getD_some] at hz
          omega
        rcases filter_not_mem_singleton hpl hpnotr hlen d hd with h | h
        · exact List.mem_append_left _ h
        · exact List.mem_append_right _ (by rw [h]; exact List.mem_singleton_self p)
      have henq_nd : enq.Nodup := by
        rw [henq]
        exact List.Nodup.sublist
          (List.Sublist.map Prod.fst (List.filter_sublist dm)) hK
      -- invariants for the next iteration
      have hres' : result ++ p :: rest = (result ++ [p]) ++ rest := by simp
      have hI1 : ((result ++ [p]) ++ (rest ++ enq)).Nodup := by
        have hbase : ((result ++ [p]) ++ rest).Nodup := by
          rw [← hres']
          exact h1
        rw [← List.append_assoc]
        refine List.nodup_append.mpr ⟨hbase, henq_nd, ?_⟩
        intro x hx hxe
        apply henq_fresh x hxe
        rcases List.mem_append.mp hx with hx1 | hx1
        · rcases List.mem_append.mp hx1 with hx2 | hx2
          · exact Or.inl hx2
          · exact Or.inr (by rw [List.mem_singleton.mp hx2]; exact List.mem_cons_self p rest)
        · exact Or.inr (List.mem_cons_of_mem p hx1)
      have hI2 : ∀ x ∈ (result ++ [p]) ++ (rest ++ enq), x ∈ dictKeys dm := by
        intro x hx
        rcases List.mem_append.mp hx with hx1 | hx1
        · rw [← hres'] at *
          exact h2 x (by
            rcases List.mem_append.mp hx1 with hx2 | hx2
            · exact List.mem_append_left _ hx2
            · exact List.mem_append_right _
                (by rw [List.mem_singleton.mp hx2]; exact List.mem_cons_self p rest))
        · rcases List.mem_append.mp hx1 with hx2 | hx2
          · exact h2 x (List.mem_append_right _ (List.mem_cons_of_mem p hx2))
          · exact henq_keys x hx2
      have hI3 : ∀ t l, (t, l) ∈ dm → dictGet? deg' t =
          some ((l.length : Int) -
            ((l.filter (fun d => decide (d ∈ result ++ [p]))).length : Int)) := by
        intro t l hm
        by_cases hpl : p ∈ l
        · rw [hdeg', pp1 t l hm hpl, h3 t l hm]
          have hlnd : l.Nodup := hD (t, l) hm
          have := filter_mem_append_singleton hlnd hpl hpnotr
          simp only [Option.getD_some]
          rw [this]
          push_cast
          ring_nf
        · have hvac : ∀ l', (t, l') ∈ dm → ¬ p ∈ l' := by
            intro l' hm'
            rw [entry_unique hK hm' hm]
            exact hpl
          rw [hdeg', pp2 t hvac, h3 t l hm,
            filter_mem_append_singleton_not hpl]
      have hI4 : ∀ t ∈ rest ++ enq, ∀ d ∈ depsOf dm t, d ∈ result ++ [p] := by
        intro t ht d hd
        rcases List.mem_append.mp ht with ht1 | ht1
        · exact List.mem_append_left _ (h4 t (List.mem_cons_of_mem p ht1) d hd)
        · exact henq_ready t ht1 d hd
      have hI5 : ∀ t ∈ result ++ [p], ∀ d ∈ depsOf dm t,
          d ∈ result ++ [p] ∧
          firstIdx (result ++ [p]) d < firstIdx (result ++ [p]) t := by
        intro t ht d hd
        rcases List.mem_append.mp ht with ht1 | ht1
        · rcases h5 t ht1 d hd with ⟨hdr, hidx⟩
          refine ⟨List.mem_append_left _ hdr, ?_⟩
          rw [firstIdx_append_left hdr [p], firstIdx_append_left ht1 [p]]
          exact hidx
        · have htp : t = p := List.mem_singleton.mp ht1
          subst htp
          have hdr : d ∈ result := h4 t (List.mem_cons_self t rest) d hd
          refine ⟨List.mem_append_left _ hdr, ?_⟩
          rw [firstIdx_append_left hdr [t], firstIdx_append_self hpnotr]
          exact firstIdx_lt_length hdr
      have hI6 : ∀ t l, (t, l) ∈ dm → (∀ d ∈ l, d ∈ result ++ [p]) →
          t ∈ result ++ [p] ∨ t ∈ rest ++ enq := by
        intro t l hm hld
        by_cases hall : ∀ d ∈ l, d ∈ result
        · rcases h6 t l hm hall with h | h
          · exact Or.inl (List.mem_append_left _ h)
          · rcases List.mem_cons.mp h with h' | h'
            · exact Or.inl (List.mem_append_right _
                (by rw [h']; exact List.mem_singleton_self p))
            · exact Or.inr (List.mem_append_left _ h')
        · push_neg at hall
          rcases hall with ⟨d, hdl, hdnr⟩
          have hdp : d = p := by
            rcases List.mem_append.mp (hld d hdl) with h' | h'
            · exact absurd h' hdnr
            · exact List.mem_singleton.mp h'
          have hpl : p ∈ l := hdp ▸ hdl
          have hfl : (l.filter (fun d => decide (d ∈ result ++ [p]))).length
              = l.length :=
            congrArg List.length (List.filter_eq_self.mpr
              (fun a ha => by simpa using hld a ha))
          have hlnd : l.Nodup := hD (t, l) hm
          have hsucc := filter_mem_append_singleton hlnd hpl hpnotr
          have hflen : (l.filter (fun d => decide (d ∈ result))).length + 1
              = l.length := by omega
          have hz : ((dictGet? deg t).getD 0 - 1 : Int) = 0 := by
            rw [h3 t l hm]
            simp only [Option.getD_some]
            have h1l : ((l.filter (fun d => decide (d ∈ result))).length : Int) + 1
                = (l.length : Int) := by exact_mod_cast hflen
            omega
          exact Or.inr (List.mem_append_right _ (henq_intro t l hm hpl hz))
      have hfuel' : (dictKeys dm).countP
          (fun t => decide (¬ t ∈ result ++ [p])) ≤ f := by
        have hcp : (dictKeys dm).countP (fun t => decide (¬ t ∈ result ++ [p])) + 1 =
            (dictKeys dm).countP (fun t => decide (¬ t ∈ result)) :=
          countP_not_mem_append hK hpkeys hpnotr
        omega
      have hmain := ihf (rest ++ enq) (result ++ [p]) deg' hI1 hI2 hI3 hI4 hI5 hI6 hfuel'
      rw [hstep, ← hq', ← hdeg'] at *
      exact hmain

/-! ## Claim C1 -/

/-- C1 (amended: dependency lists must be free of repeated entries —
the claim fails when a list repeats a name, see the counterexample):
for every acyclic, referentially closed dependency map with duplicate-free
dependency lists, `get_execution_order` returns a sequence in which every
dependency appears at a strictly smaller index than its dependent, and the
sequence is a permutation of the map's task names — each name exactly once,
no omissions. -/
theorem claim_C1 (dm : DepMap) (hK : KeysNodup dm) (hC : Closed dm)
    (hA : Acyclic dm) (hD : DepListsNodup dm) :
    (∀ x, x ∈ get_execution_order dm ↔ x ∈ dictKeys dm) ∧
    (get_execution_order dm).Nodup ∧
    ∀ t ∈ dictKeys dm, ∀ d ∈ depsOf dm t,
      firstIdx (get_execution_order dm) d < firstIdx (get_execution_order dm) t := by
  have hqsub : (((initInDegree dm).filter
      (fun p => decide (p.2 = 0))).map Prod.fst).Sublist (dictKeys dm) := by
    have h1 : (((initInDegree dm).filter (fun p => decide (p.2 = 0))).map
        Prod.fst).Sublist ((initInDegree dm).map Prod.fst) :=
      List.Sublist.map Prod.fst (List.filter_sublist (initInDegree dm))
    rw [show (initInDegree dm).map Prod.fst = dictKeys (initInDegree dm) from rfl,
      dictKeys_initInDegree] at h1
    exact h1
  have hq0 : ∀ t ∈ ((initInDegree dm).filter
      (fun p => decide (p.2 = 0))).map Prod.fst, depsOf dm t = [] := by
    intro t ht
    rcases List.mem_map.mp ht with ⟨pr, hpr, hfst⟩
    have hprf := List.mem_filter.mp hpr
    rcases List.mem_map.mp hprf.1 with ⟨e, he, hpe⟩
    have hlen : ((e.2.length : Int)) = 0 := by
      have h2 := hprf.2
      rw [← hpe] at h2
      simpa using h2
    have he2 : e.2 = [] := by
      have : e.2.length = 0 := by exact_mod_cast hlen
      exact List.length_eq_zero.mp this
    have hte : t = e.1 := by rw [← hfst, ← hpe]
    rw [hte, ← he2]
    exact depsOf_eq_of_mem hK (by rw [Prod.mk.eta]; exact he)
  have hrun := kahnRun_spec dm hK hC hA hD (dm.length + 1)
    (((initInDegree dm).filter (fun p => decide (p.2 = 0))).map Prod.fst)
    [] (initInDegree dm)
    (by simpa using List.Nodup.sublist hqsub hK)
    (by
      intro x hx
      exact hqsub.subset (by simpa using hx))
    (by
      intro t l hm
      rw [initInDegree_get hK hm]
      simp)
    (by
      intro t ht d hd
      rw [hq0 t ht] at hd
      cases hd)
    (by intro t ht; cases ht)
    (by
      intro t l hm hld
      have hl : l = [] := by
        cases l with
        | nil => rfl
        | cons a as => exact absurd (hld a (List.mem_cons_self a as)) (by intro h; cases h)
      refine Or.inr (List.mem_map.mpr ⟨(t, (0 : Int)), ?_, rfl⟩)
      refine List.mem_filter.mpr ⟨?_, by simp⟩
      rw [initInDegree]
      refine List.mem_map.mpr ⟨(t, l), hm, ?_⟩
      rw [hl]
      rfl)
    (by
      calc (dictKeys dm).countP (fun t => decide (¬ t ∈ ([] : List Name)))
          ≤ (dictKeys dm).length := List.countP_le_length _
        _ = dm.length := List.length_map _ _
        _ ≤ dm.length + 1 := Nat.le_succ _)
  rcases hrun with ⟨hcomp, hnodup, hmem, hord⟩
  refine ⟨fun x => ⟨fun hx => hmem x hx, fun hx => hcomp x hx⟩, hnodup, ?_⟩
  intro t ht d hd
  exact (hord t (hcomp t ht) d hd).2

/-- C1 counterexample to the claim as stated: the acyclic, closed map
`{d: [], t: [d, d]}` repeats a dependency entry.  The code initializes
`t`'s in-degree to 2 (one per entry) but decrements only once when `d` is
emitted (`if task in deps` tests membership, not multiplicity), so `t` is
never enqueued: the returned order is `["d"]`, which omits `t` and is not a
permutation of the task names. -/
theorem claim_C1_counterexample :
    KeysNodup [("d", []), ("t", ["d", "d"])] ∧
    Closed [("d", []), ("t", ["d", "d"])] ∧
    Acyclic [("d", []), ("t", ["d", "d"])] ∧
    get_execution_order [("d", []), ("t", ["d", "d"])] = ["d"] ∧
    "t" ∈ dictKeys [("d", ([] : List Name)), ("t", ["d", "d"])] ∧
    ¬ "t" ∈ get_execution_order [("d", []), ("t", ["d", "d"])] := by
  refine ⟨by decide, by decide, ?_, rfl, by decide, by decide⟩
  apply acyclic_of_ranking _ (fun n => if n = "t" then 1 else 0)
  intro t d hd
  simp only [depsOf, dictGet?] at hd
  split_ifs at hd with h1 h2
  · simp at hd
  · simp at hd
    subst_vars
    decide
  · simp at hd

/-- Witness for C1 (amended) at the concrete chain map. -/
theorem claim_C1_witness :
    KeysNodup [("A", []), ("B", ["A"]), ("C", ["B"])] ∧
    Closed [("A", []), ("B", ["A"]), ("C", ["B"])] ∧
    Acyclic [("A", []), ("B", ["A"]), ("C", ["B"])] ∧
    DepListsNodup [("A", []), ("B", ["A"]), ("C", ["B"])] ∧
    ((∀ x, x ∈ get_execution_order [("A", []), ("B", ["A"]), ("C", ["B"])] ↔
        x ∈ dictKeys [("A", ([] : List Name)), ("B", ["A"]), ("C", ["B"])]) ∧
      (get_execution_order [("A", []), ("B", ["A"]), ("C", ["B"])]).Nodup ∧
      ∀ t ∈ dictKeys [("A", ([] : List Name)), ("B", ["A"]), ("C", ["B"])],
        ∀ d ∈ depsOf [("A", []), ("B", ["A"]), ("C", ["B"])] t,
        firstIdx (get_execution_order [("A", []), ("B", ["A"]), ("C", ["B"])]) d <
          firstIdx (get_execution_order [("A", []), ("B", ["A"]), ("C", ["B"])]) t) :=
  ⟨by decide, by decide, acyclic_chainABC, by decide,
    claim_C1 [("A", []), ("B", ["A"]), ("C", ["B"])] (by decide) (by decide)
      acyclic_chainABC (by decide)⟩

end Dagitron
